import Mathlib

/-!
# SHAD graph library: shortest-path engine and attributed edge index

A shallow embedding of

* `include/shad/extensions/graph_library/algorithms/sssp.h`
  (`__sssp_neigh_iter`, `__sssp_iteration`, `__sssp_length`, `sssp_length`), and
* `include/shad/extensions/graph_library/attributed_edge_index.h`
  (`LocalEdgeListChunk`, `FlatEdgeList`, `ElementInserter`, both forms of
  `GetVertexAttributes`, `VertexAttributesApply`, `CallVertexAttributesApplyFun`, the
  constructor's bucket count and `kEdgeListChunkSize_`).

Vertex and destination identifiers are natural numbers.  The asynchronous callbacks of one
BFS level are run one after the other, in the order in which the containers enumerate their
elements; the `while` loop of `__sssp_length` takes a fuel argument that bounds the number of
levels, and the theorems give the fuel from which on the result is produced.
-/

namespace SHAD

/-! ## Collaborator containers -/

/-- Modelled from the spec: `shad::Set<VertexT>` / `shad::LocalSet<DestT>` (their headers are
not part of the sources).  A set of identifiers, kept as a list without regard to order;
uniqueness of the elements is enforced by `Set.Insert`. -/
abbrev Set := List Nat

/-- Modelled from the spec: `Set::Insert`, membership insert; inserting an element that is
already present is a no-op. -/
def Set.Insert (s : Set) (x : Nat) : Set :=
  if x ∈ s then s else s ++ [x]

/-- Modelled from the spec: `Set::Create(hint)`, a fresh empty set; the size hint has no
effect on the contents. -/
def Set.Create (_hint : Nat) : Set := []

/-- Modelled from the spec: `Set::Reset(hint)`, which clears the contents; the capacity hint
has no effect on the contents. -/
def Set.Reset (_s : Set) (_hint : Nat) : Set := []

/-- Modelled from the spec: `Set::Size`, the number of elements. -/
def Set.Size (s : Set) : Nat := s.length

/-- Modelled from the spec: `shad::Array<bool>` (its header is not part of the sources), a
dense boolean table indexed by vertex identifier.  `At` is function application.  The table
has a slot for every identifier; its size enters only the statements that count the marked
slots, where the identifiers are required to be smaller than it. -/
abbrev BoolArray := Nat → Bool

/-- Modelled from the spec: `Array<bool>::Create(size, false)`: every slot is `false`. -/
def BoolArray.Create (_size : Nat) (init : Bool) : BoolArray := fun _ => init

/-- Modelled from the spec: `Array<bool>::InsertAt(pos, value)`, an indexed write of one
slot. -/
def BoolArray.InsertAt (a : BoolArray) (pos : Nat) (value : Bool) : BoolArray :=
  fun i => if i = pos then value else a i

/-- Modelled from the spec: the graph handed to the engine (`GraphT`, an edge index whose
header `edge_index.h` is not part of the sources): entries keyed by source vertex, each with
its neighbor list. -/
abbrev Graph := List (Nat × List Nat)

/-- Modelled from the spec: the destinations that `AsyncForEachNeighbor(handle, v, ...)`
enumerates.  A source with no entry has no neighbors. -/
def Graph.neighbors (g : Graph) (v : Nat) : List Nat :=
  match g.lookup v with
  | some ns => ns
  | none => []

/-! ## `sssp.h` -/

/-- The containers shared by the callbacks of a query: the next frontier (`qnextID`), the
visited array (`visitedID`) and the one-slot found array (`foundID`, slot `0`). -/
structure Shared where
  qnext : Set
  visited : BoolArray
  found : Bool

/-- The value of `std::numeric_limits<size_t>::infinity()`.  `size_t` is an integer type, so
`has_infinity` is `false` and the C++ standard library returns `size_t()`, that is `0`. -/
def numeric_limits_infinity : Nat := 0

/-- Embedding of `__sssp_neigh_iter` (sssp.h, lines 53-72); `dest` is the neighbor being
visited and `target` the destination of the query. -/
def __sssp_neigh_iter (dest target : Nat) (s : Shared) : Shared :=
  if s.visited dest = true then s
  else if dest = target then
    { s with found := true }
  else
    { s with qnext := Set.Insert s.qnext dest,
             visited := BoolArray.InsertAt s.visited dest true }

/-- Embedding of `__sssp_iteration` (sssp.h, lines 74-84): the neighbors of `curr_vertex` are
enumerated and `__sssp_neigh_iter` is applied to each. -/
def __sssp_iteration (g : Graph) (curr_vertex target : Nat) (s : Shared) : Shared :=
  (g.neighbors curr_vertex).foldl (fun acc d => __sssp_neigh_iter d target acc) s

/-- One level: `qPtr->AsyncForEachElement(handle, __sssp_iteration, ...)` followed by
`waitForCompletion(handle)` (sssp.h, lines 107-109). -/
def expandLevel (g : Graph) (q : Set) (target : Nat) (s : Shared) : Shared :=
  q.foldl (fun acc v => __sssp_iteration g v target acc) s

/-- What `__sssp_length` leaves behind: the returned `size_t`, the level counter, the
contents of the sets designated by `qPtr` and `nextqPtr`, the visited array and the found
flag. -/
structure Outcome where
  ret : Nat
  level : Nat
  q : Set
  sh : Shared

/-- The `while (qPtr->Size())` loop of `__sssp_length` (sssp.h, lines 105-117).  `fuel` bounds
the number of times the loop body may run; `none` means the fuel ran out. -/
def levelLoop (g : Graph) (num_vertices dest : Nat) : Nat → Nat → Set → Shared → Option Outcome
  | 0, level, q, s =>
    if Set.Size q = 0 then some ⟨numeric_limits_infinity, level, q, s⟩ else none
  | fuel + 1, level, q, s =>
    if Set.Size q = 0 then some ⟨numeric_limits_infinity, level, q, s⟩
    else
      let s1 := expandLevel g q dest s
      let level1 := level + 1
      if s1.found = true then some ⟨level1, level1, q, s1⟩
      else
        levelLoop g num_vertices dest fuel level1 s1.qnext
          { s1 with qnext := Set.Reset q (num_vertices / 2) }

/-- Embedding of `__sssp_length` (sssp.h, lines 86-118). -/
def __sssp_length (fuel : Nat) (g : Graph) (num_vertices : Nat) (to_visit_0 to_visit_1 : Set)
    (visited : BoolArray) (found : Bool) (src dest : Nat) : Option Outcome :=
  if src = dest then some ⟨0, 0, to_visit_0, ⟨to_visit_1, visited, found⟩⟩
  else
    levelLoop g num_vertices dest fuel 0 (Set.Insert to_visit_0 src)
      ⟨to_visit_1, BoolArray.InsertAt visited src true, found⟩

/-- The call of `__sssp_length` made by `sssp_length` (sssp.h, lines 122-129) on freshly
created containers, with everything it leaves behind.  `num_vertices` stands for
`gPtr->Size()`, whose definition is not part of the sources. -/
def sssp_length_outcome (fuel : Nat) (g : Graph) (num_vertices src dest : Nat) :
    Option Outcome :=
  let q0 := Set.Create (num_vertices / 2)
  let q1 := Set.Create (num_vertices / 2)
  let visited := BoolArray.Create num_vertices false
  let found := BoolArray.Create 1 false
  __sssp_length fuel g num_vertices q0 q1 visited (found 0) src dest

/-- Embedding of `sssp_length` (sssp.h, lines 120-134): the `size_t` it returns. -/
def sssp_length (fuel : Nat) (g : Graph) (num_vertices src dest : Nat) : Option Nat :=
  (sssp_length_outcome fuel g num_vertices src dest).map Outcome.ret

/-- The largest element of a list of identifiers (`0` for the empty list). -/
def listSup (l : List Nat) : Nat := l.foldr max 0

/-- A strict upper bound of `src` and of every neighbor identifier stored in `g`. -/
def idBound (g : Graph) (src : Nat) : Nat :=
  max src (listSup (g.map (fun e => listSup e.2))) + 1

/-- The directed path `0 → 1 → 2 → 3 → 4`. -/
def pathGraph : Graph := [(0, [1]), (1, [2]), (2, [3]), (3, [4])]

/-- The undirected star with center `0` and leaves `1`, `2`, `3`. -/
def starGraph : Graph := [(0, [1, 2, 3]), (1, [0]), (2, [0]), (3, [0])]

/-! ## `attributed_edge_index.h` -/

/-- Embedding of `AttrEdgesPair<SrcAttrT, DestT>` (attributed_edge_index.h, lines 43-69):
the attribute of a source vertex and its neighbor set. -/
structure AttrEdgesPair (SrcAttrT : Type) where
  attributes_ : SrcAttrT
  neighbors_ : Set

/-- Embedding of `kEdgeListChunkSize_ = 3072 / sizeof(DestT)` (line 79); `sizeofDestT` stands
for `sizeof(DestT)`. -/
def kEdgeListChunkSize_ (sizeofDestT : Nat) : Nat := 3072 / sizeofDestT

/-- Embedding of `LocalEdgeListChunk` (lines 80-90).  `destinations` is the
`std::array<DestT, kEdgeListChunkSize_>`; the member `chunkSize`, which the source never
writes nor reads, is left out. -/
structure LocalEdgeListChunk where
  numDest : Nat
  overwrite : Bool
  destinations : List Nat

/-- Embedding of the constructor `LocalEdgeListChunk(_numDest, _ow, _dest)` (lines 81-85).
`_dest i` is `_dest[i]`; the `memcpy` writes the first `min(numDest, destinations.size())`
slots of the array, the other slots keep their indeterminate contents `uninit`. -/
def LocalEdgeListChunk.ctor (sizeofDestT : Nat) (uninit : Nat → Nat) (_numDest : Nat)
    (_ow : Bool) (_dest : Nat → Nat) : LocalEdgeListChunk :=
  let size := kEdgeListChunkSize_ sizeofDestT
  { numDest := _numDest
    overwrite := _ow
    destinations :=
      (List.range size).map (fun i => if i < min _numDest size then _dest i else uninit i) }

/-- Embedding of `FlatEdgeList` (lines 92-96); `values i` is `values[i]`. -/
structure FlatEdgeList where
  values : Nat → Nat
  numValues : Nat
  overwrite : Bool

/-- Embedding of `ElementInserter::Insert(lhs, const DestT value)` (lines 100-102). -/
def ElementInserter.Insert {SrcAttrT : Type} (lhs : AttrEdgesPair SrcAttrT) (value : Nat) :
    AttrEdgesPair SrcAttrT :=
  { lhs with neighbors_ := Set.Insert lhs.neighbors_ value }

/-- Embedding of `ElementInserter::Insert(lhs, const FlatEdgeList values)` (lines 103-109). -/
def ElementInserter.InsertFlatEdgeList {SrcAttrT : Type} (lhs : AttrEdgesPair SrcAttrT)
    (values : FlatEdgeList) : AttrEdgesPair SrcAttrT :=
  let lhs1 : AttrEdgesPair SrcAttrT :=
    if values.overwrite = true then
      { lhs with neighbors_ := Set.Reset lhs.neighbors_ values.numValues }
    else lhs
  (List.range values.numValues).foldl
    (fun acc i => { acc with neighbors_ := Set.Insert acc.neighbors_ (values.values i) }) lhs1

/-- Embedding of `ElementInserter::Insert(lhs, const LocalEdgeListChunk &chunk)`
(lines 111-118). -/
def ElementInserter.InsertLocalEdgeListChunk {SrcAttrT : Type} (lhs : AttrEdgesPair SrcAttrT)
    (chunk : LocalEdgeListChunk) : AttrEdgesPair SrcAttrT :=
  let lhs1 : AttrEdgesPair SrcAttrT :=
    if chunk.overwrite = true then
      { lhs with neighbors_ := Set.Reset lhs.neighbors_ chunk.numDest }
    else lhs
  let chunkSize := min chunk.numDest chunk.destinations.length
  (List.range chunkSize).foldl
    (fun acc i =>
      { acc with neighbors_ := Set.Insert acc.neighbors_ (chunk.destinations.getD i 0) }) lhs1

/-- One operation of `ElementInserter` on a neighbor set: the three overloads of `Insert`. -/
inductive InsertOp where
  | value (v : Nat)
  | flat (values : FlatEdgeList)
  | chunk (c : LocalEdgeListChunk)

/-- The overwrite flag of an operation; the single-destination `Insert` has none and never
resets the set. -/
def InsertOp.overwrites : InsertOp → Bool
  | InsertOp.value _ => false
  | InsertOp.flat values => values.overwrite
  | InsertOp.chunk c => c.overwrite

/-- Applies one operation of `ElementInserter`. -/
def InsertOp.apply {SrcAttrT : Type} (lhs : AttrEdgesPair SrcAttrT) :
    InsertOp → AttrEdgesPair SrcAttrT
  | InsertOp.value v => ElementInserter.Insert lhs v
  | InsertOp.flat values => ElementInserter.InsertFlatEdgeList lhs values
  | InsertOp.chunk c => ElementInserter.InsertLocalEdgeListChunk lhs c

/-- Applies a sequence of operations of `ElementInserter`, first to last. -/
def applyOps {SrcAttrT : Type} (lhs : AttrEdgesPair SrcAttrT) (ops : List InsertOp) :
    AttrEdgesPair SrcAttrT :=
  ops.foldl InsertOp.apply lhs

/-- Modelled from the spec: `LocalHashmap::Lookup` (its header is not part of the sources):
the entry stored under `key`, or absent (`nullptr`). -/
def LocalHashmap.Lookup {ValueT : Type} (m : List (Nat × ValueT)) (key : Nat) :
    Option ValueT :=
  m.lookup key

/-- Embedding of `AttributedEdgeIndexStorage` (lines 71-164): the hash map `edgeList_` from
source vertices to their `AttrEdgesPair`. -/
structure AttributedEdgeIndexStorage (SrcAttrT : Type) where
  edgeList_ : List (Nat × AttrEdgesPair SrcAttrT)

/-- Embedding of `bool GetVertexAttributes(const SrcT &src, SrcAttributesT *attr)`
(lines 130-137).  `attr` is the value that `*attr` holds before the call; the result is the
returned boolean, the value of `*attr` after the call, and the storage after the call. -/
def AttributedEdgeIndexStorage.GetVertexAttributesOut {SrcAttrT : Type}
    (st : AttributedEdgeIndexStorage SrcAttrT) (src : Nat) (attr : SrcAttrT) :
    Bool × SrcAttrT × AttributedEdgeIndexStorage SrcAttrT :=
  match LocalHashmap.Lookup st.edgeList_ src with
  | some entry => (true, entry.attributes_, st)
  | none => (false, attr, st)

/-- A neighbor set holding nothing yet, with the unit attribute. -/
def emptyPair : AttrEdgesPair Unit := ⟨(), []⟩

/-- The sequence: insert `1`, then a flat list `[2]` with `overwrite = true`. -/
def opsInsertThenOverwrite : List InsertOp :=
  [InsertOp.value 1, InsertOp.flat ⟨fun _ => 2, 1, true⟩]

/-- The same two operations in the other order. -/
def opsOverwriteThenInsert : List InsertOp :=
  [InsertOp.flat ⟨fun _ => 2, 1, true⟩, InsertOp.value 1]

/-! ## Reference notions: walks and shortest distance -/

/-- `Walk g k u v`: there is a walk of `k` edges from `u` to `v` along neighbor edges. -/
def Walk (g : Graph) : Nat → Nat → Nat → Prop
  | 0, u, v => u = v
  | k + 1, u, v => ∃ w, Walk g k u w ∧ v ∈ g.neighbors w

/-- `dest` is reachable from `src` by following neighbor edges. -/
def Reachable (g : Graph) (src dest : Nat) : Prop := ∃ k, Walk g k src dest

/-- `d` is the number of edges of a shortest path from `src` to `dest`. -/
def IsDist (g : Graph) (src dest d : Nat) : Prop :=
  Walk g d src dest ∧ ∀ j, Walk g j src dest → d ≤ j

/-- `v` lies at shortest-path distance exactly `k` from `src`. -/
def AtDist (g : Graph) (src k v : Nat) : Prop :=
  Walk g k src v ∧ ∀ j, j < k → ¬ Walk g j src v

/-! ## Notions used by the proofs -/

/-- The state at the head of the loop when the level counter is `k` and the destination has
not been found so far. -/
structure LevelInv (g : Graph) (src dest k : Nat) (q : Set) (s : Shared) : Prop where
  qnext_nil : s.qnext = []
  not_found : s.found = false
  visited_iff : ∀ v, s.visited v = true ↔ ∃ j, j ≤ k ∧ Walk g j src v
  q_iff : ∀ v, v ∈ q ↔ AtDist g src k v
  dest_far : ∀ j, j ≤ k → ¬ Walk g j src dest

/-- The number of slots below `N` that are marked in the visited array. -/
def visitedCount (N : Nat) (vis : BoolArray) : Nat :=
  ((Finset.range N).filter (fun i => vis i = true)).card

/-- What an operation without overwrite adds to the neighbor set. -/
def InsertOp.adds : InsertOp → Nat → Prop
  | InsertOp.value v, x => x = v
  | InsertOp.flat values, x => ∃ i, i < values.numValues ∧ values.values i = x
  | InsertOp.chunk c, x =>
    ∃ i, i < min c.numDest c.destinations.length ∧ c.destinations.getD i 0 = x

/-- The sequence: insert `1`, then a flat list `[2]` with `overwrite = false`. -/
def opsInsertThenUnion : List InsertOp :=
  [InsertOp.value 1, InsertOp.flat ⟨fun _ => 2, 1, false⟩]

/-- The same two operations in the other order. -/
def opsUnionThenInsert : List InsertOp :=
  [InsertOp.flat ⟨fun _ => 2, 1, false⟩, InsertOp.value 1]

/-! ## `attributed_edge_index.h`: attribute access and construction -/

/-- A value of the pointer type `SrcAttributesT *`: the null pointer, the address of the
attribute stored in the entry of a source vertex (`&entry->attributes_`), or the address of
some other object. -/
inductive AttrPtr where
  | null
  | stored (src : Nat)
  | other (addr : Nat)
  deriving DecidableEq

/-- Embedding of `SrcAttributesT *GetVertexAttributes(const SrcT &src)` (lines 121-128).
Line 125 is `return entry->attributes_;`: the attribute itself, of type `SrcAttrT`, is
returned from a function whose return type is `SrcAttributesT *`, so the statement is
well-formed only when `SrcAttrT` converts implicitly to that pointer type; `toPtr` is this
conversion. -/
def AttributedEdgeIndexStorage.GetVertexAttributes {SrcAttrT : Type}
    (toPtr : SrcAttrT → AttrPtr) (st : AttributedEdgeIndexStorage SrcAttrT) (src : Nat) :
    AttrPtr :=
  let res := AttrPtr.null
  match LocalHashmap.Lookup st.edgeList_ src with
  | some entry => toPtr entry.attributes_
  | none => res

/-- The implicit conversion of an attribute of type `std::nullptr_t` to a pointer: the null
pointer. -/
def nullptrToPtr : Unit → AttrPtr := fun _ => AttrPtr.null

/-- A storage over the attribute type `std::nullptr_t` with one entry, for source `0`. -/
def nullptrStorage : AttributedEdgeIndexStorage Unit := ⟨[(0, ⟨(), [1]⟩)]⟩

/-- Modelled from the spec: a write through the pointer that `LocalHashmap::Lookup` returned
for `key`: the entry found by `Lookup` is replaced by `f` of it, every other entry is kept. -/
def LocalHashmap.Update {ValueT : Type} (f : ValueT → ValueT) (key : Nat) :
    List (Nat × ValueT) → List (Nat × ValueT)
  | [] => []
  | (k, v) :: rest =>
    if key = k then (k, f v) :: rest else (k, v) :: LocalHashmap.Update f key rest

/-- Embedding of `VertexAttributesApply(src, function, args...)` (lines 139-146).  The
callback receives `src`, the stored attribute and the extra arguments by reference; it is
modelled as a function that returns the values it leaves in the attribute and in the
arguments.  The result is the storage and the arguments after the call. -/
def AttributedEdgeIndexStorage.VertexAttributesApply {SrcAttrT Args : Type}
    (st : AttributedEdgeIndexStorage SrcAttrT) (src : Nat)
    (function : Nat → SrcAttrT → Args → SrcAttrT × Args) (args : Args) :
    AttributedEdgeIndexStorage SrcAttrT × Args :=
  match LocalHashmap.Lookup st.edgeList_ src with
  | some entry =>
    let r := function src entry.attributes_ args
    (⟨LocalHashmap.Update (fun e => { e with attributes_ := r.1 }) src st.edgeList_⟩, r.2)
  | none => (st, args)

/-- Embedding of `CallVertexAttributesApplyFun(stPtr, src, function, args, is...)`
(lines 153-163); the tuple `args` is unpacked into the extra arguments of the callback. -/
def AttributedEdgeIndexStorage.CallVertexAttributesApplyFun {SrcAttrT Args : Type}
    (stPtr : AttributedEdgeIndexStorage SrcAttrT) (src : Nat)
    (function : Nat → SrcAttrT → Args → SrcAttrT × Args) (args : Args) :
    AttributedEdgeIndexStorage SrcAttrT × Args :=
  match LocalHashmap.Lookup stPtr.edgeList_ src with
  | some entry =>
    let r := function src entry.attributes_ args
    (⟨LocalHashmap.Update (fun e => { e with attributes_ := r.1 }) src stPtr.edgeList_⟩, r.2)
  | none => (stPtr, args)

/-- A callback that adds one to the attribute and records the invocation, with the source
and the attribute it was given, in a log passed as extra argument. -/
def loggingFun (src : Nat) (attr : Nat) (log : List (Nat × Nat)) : Nat × List (Nat × Nat) :=
  (attr + 1, log ++ [(src, attr)])

/-- A storage with natural-number attributes: source `0` with attribute `7` and neighbors
`1, 2`, source `5` with attribute `9` and neighbor `0`. -/
def natStorage : AttributedEdgeIndexStorage Nat := ⟨[(0, ⟨7, [1, 2]⟩), (5, ⟨9, [0]⟩)]⟩

/-- Embedding of the argument `std::max(numVertices / constants::kDefaultNumEntriesPerBucket,
1lu)` with which the constructor of `AttributedEdgeIndexStorage` (lines 76-78) constructs
`edgeList_`: the number of buckets.  The constant `kDefaultNumEntriesPerBucket` is not part of
the sources and is a parameter. -/
def AttributedEdgeIndexStorage.numBuckets (kDefaultNumEntriesPerBucket numVertices : Nat) :
    Nat :=
  max (numVertices / kDefaultNumEntriesPerBucket) 1

/-! ## Notions for the order of the visits, the steps of a query and the loop heads -/

/-- Two states of the shared containers hold the same contents: the next frontiers have the
same elements, the visited arrays agree on every slot and the found flags are equal. -/
def Shared.Equiv (a b : Shared) : Prop :=
  (∀ x, x ∈ a.qnext ↔ x ∈ b.qnext) ∧ (∀ v, a.visited v = b.visited v) ∧ a.found = b.found

/-- The neighbor visits that one level issues for the frontier `q`: for every frontier
element, one visit for each of its neighbors. -/
def levelVisits (g : Graph) : Set → List Nat
  | [] => []
  | v :: q => g.neighbors v ++ levelVisits g q

/-- The loop of `__sssp_length` (sssp.h, lines 105-117) when the neighbor visits of the level
whose counter is `level` run in the order `order level visits`, where `visits` are the visits
that the level issues. -/
def levelLoopOrd (order : Nat → List Nat → List Nat) (g : Graph) (num_vertices dest : Nat) :
    Nat → Nat → Set → Shared → Option Outcome
  | 0, level, q, s =>
    if Set.Size q = 0 then some ⟨numeric_limits_infinity, level, q, s⟩ else none
  | fuel + 1, level, q, s =>
    if Set.Size q = 0 then some ⟨numeric_limits_infinity, level, q, s⟩
    else
      let s1 := (order level (levelVisits g q)).foldl
        (fun acc d => __sssp_neigh_iter d dest acc) s
      let level1 := level + 1
      if s1.found = true then some ⟨level1, level1, q, s1⟩
      else
        levelLoopOrd order g num_vertices dest fuel level1 s1.qnext
          { s1 with qnext := Set.Reset q (num_vertices / 2) }

/-- The value returned by `sssp_length` (sssp.h, lines 86-134) when the neighbor visits of
every level run in the order given by `order`. -/
def sssp_length_ord (order : Nat → List Nat → List Nat) (fuel : Nat) (g : Graph)
    (num_vertices src dest : Nat) : Option Nat :=
  if src = dest then some 0
  else
    (levelLoopOrd order g num_vertices dest fuel 0
      (Set.Insert (Set.Create (num_vertices / 2)) src)
      ⟨Set.Create (num_vertices / 2),
        BoolArray.InsertAt (BoolArray.Create num_vertices false) src true,
        BoolArray.Create 1 false 0⟩).map Outcome.ret

/-- One state-changing step of a query of `__sssp_length` on the pair (set designated by
`qPtr`, shared containers): the initial marking of `src` (sssp.h, lines 99-101), one neighbor
visit (`__sssp_neigh_iter`, lines 53-72), or the Reset and swap of the frontiers
(lines 114-115). -/
inductive QueryStep (target : Nat) : Set × Shared → Set × Shared → Prop
  | mark (q : Set) (s : Shared) (src : Nat) :
      QueryStep target (q, s)
        (Set.Insert q src, { s with visited := BoolArray.InsertAt s.visited src true })
  | visit (q : Set) (s : Shared) (d : Nat) :
      QueryStep target (q, s) (q, __sssp_neigh_iter d target s)
  | swap (q : Set) (s : Shared) (hint : Nat) :
      QueryStep target (q, s) (s.qnext, { s with qnext := Set.Reset q hint })

/-- Every visited slot and the found flag that are `true` in `a` are `true` in `b`. -/
def Latched (a b : Set × Shared) : Prop :=
  (∀ v, a.2.visited v = true → b.2.visited v = true) ∧ (a.2.found = true → b.2.found = true)

/-- The state (set designated by `qPtr`, shared containers) at the head of the `while` loop
of `__sssp_length` (sssp.h, lines 105-116) after `k` runs of the body that went on to the
next round, starting from `(q0, s0)`: each run expands the level, then resets the consumed
frontier and swaps the two. -/
def loopHead (g : Graph) (num_vertices dest : Nat) (q0 : Set) (s0 : Shared) :
    Nat → Set × Shared
  | 0 => (q0, s0)
  | k + 1 =>
    let h := loopHead g num_vertices dest q0 s0 k
    let s1 := expandLevel g h.1 dest h.2
    (s1.qnext, { s1 with qnext := Set.Reset h.1 (num_vertices / 2) })

/-- The current frontier with which a query of `sssp_length` enters the loop: the fresh set
`q0` after `qPtr->Insert(src)`. -/
def initialFrontier (num_vertices src : Nat) : Set :=
  Set.Insert (Set.Create (num_vertices / 2)) src

/-- The shared containers with which a query of `sssp_length` enters the loop: the fresh set
`q1`, the fresh visited array after `visitedPtr->InsertAt(src, true)` and the fresh found
flag. -/
def initialShared (num_vertices src : Nat) : Shared :=
  ⟨Set.Create (num_vertices / 2),
    BoolArray.InsertAt (BoolArray.Create num_vertices false) src true,
    BoolArray.Create 1 false 0⟩

/-- The state at the head of the loop of a query of `sssp_length` when the level counter is
`k`. -/
def queryHead (g : Graph) (num_vertices src dest k : Nat) : Set × Shared :=
  loopHead g num_vertices dest (initialFrontier num_vertices src)
    (initialShared num_vertices src) k

/-! ## Lemmas on the containers and the per-neighbor visit -/

theorem lookup_of_mem {ValueT : Type} (m : List (Nat × ValueT)) (key : Nat) (e : ValueT)
    (h : (key, e) ∈ m) : ∃ e2, m.lookup key = some e2 := by
  induction m with
  | nil => simp at h
  | cons a m ih =>
    obtain ⟨k, b⟩ := a
    rw [List.lookup_cons]
    by_cases hk : key = k
    · subst hk
      exact ⟨b, by simp⟩
    · have hb : (key == k) = false := by simpa using hk
      rw [hb]
      rcases List.mem_cons.mp h with h | h
      · exact absurd (congrArg Prod.fst h) hk
      · exact ih h

theorem mem_of_lookup_some {ValueT : Type} (m : List (Nat × ValueT)) (key : Nat) (e : ValueT)
    (h : m.lookup key = some e) : (key, e) ∈ m := by
  induction m with
  | nil => simp [List.lookup] at h
  | cons a m ih =>
    obtain ⟨k, b⟩ := a
    rw [List.lookup_cons] at h
    by_cases hk : key = k
    · subst hk
      simp at h
      subst h
      exact List.mem_cons_self _ _
    · have hb : (key == k) = false := by simpa using hk
      rw [hb] at h
      exact List.mem_cons_of_mem _ (ih h)

theorem Set.mem_Insert (s : Set) (x y : Nat) : y ∈ Set.Insert s x ↔ y ∈ s ∨ y = x := by
  unfold Set.Insert
  by_cases h : x ∈ s
  · simp only [h, if_true]
    constructor
    · intro hy; exact Or.inl hy
    · rintro (hy | rfl)
      · exact hy
      · exact h
  · simp [h]

theorem neigh_iter_visited (d t : Nat) (s : Shared) (v : Nat) :
    (__sssp_neigh_iter d t s).visited v = true ↔ s.visited v = true ∨ (v = d ∧ d ≠ t) := by
  unfold __sssp_neigh_iter
  by_cases h1 : s.visited d = true
  · rw [if_pos h1]
    constructor
    · intro h; exact Or.inl h
    · rintro (h | ⟨rfl, _⟩)
      · exact h
      · exact h1
  · rw [if_neg h1]
    by_cases h2 : d = t
    · rw [if_pos h2]
      simp [h2]
    · rw [if_neg h2]
      by_cases h3 : v = d
      · simp [BoolArray.InsertAt, h3, h2]
      · simp [BoolArray.InsertAt, h3]

theorem neigh_iter_qnext (d t : Nat) (s : Shared) (v : Nat) :
    v ∈ (__sssp_neigh_iter d t s).qnext ↔
      v ∈ s.qnext ∨ (v = d ∧ s.visited d = false ∧ d ≠ t) := by
  unfold __sssp_neigh_iter
  by_cases h1 : s.visited d = true
  · rw [if_pos h1]
    simp [h1]
  · rw [if_neg h1]
    by_cases h2 : d = t
    · rw [if_pos h2]
      simp [h2]
    · rw [if_neg h2]
      have h1f : s.visited d = false := by simpa using h1
      simp [Set.mem_Insert, h1f, h2]

theorem neigh_iter_found (d t : Nat) (s : Shared) :
    (__sssp_neigh_iter d t s).found = true ↔
      s.found = true ∨ (d = t ∧ s.visited d = false) := by
  unfold __sssp_neigh_iter
  by_cases h1 : s.visited d = true
  · rw [if_pos h1]
    simp [h1]
  · rw [if_neg h1]
    have h1f : s.visited d = false := by simpa using h1
    by_cases h2 : d = t
    · rw [if_pos h2]
      constructor
      · intro _; exact Or.inr ⟨h2, h1f⟩
      · intro _; rfl
    · rw [if_neg h2]
      simp [h2]

/-! ### One source vertex: the fold of `__sssp_iteration` -/

theorem foldl_neigh_visited (t : Nat) (ds : List Nat) (s : Shared) (v : Nat) :
    (ds.foldl (fun acc d => __sssp_neigh_iter d t acc) s).visited v = true ↔
      s.visited v = true ∨ (v ∈ ds ∧ v ≠ t) := by
  induction ds generalizing s with
  | nil => simp
  | cons d ds ih =>
    rw [List.foldl_cons, ih, neigh_iter_visited, List.mem_cons]
    constructor
    · rintro ((h | ⟨rfl, h⟩) | ⟨h1, h2⟩)
      · exact Or.inl h
      · exact Or.inr ⟨Or.inl rfl, h⟩
      · exact Or.inr ⟨Or.inr h1, h2⟩
    · rintro (h | ⟨rfl | h1, h2⟩)
      · exact Or.inl (Or.inl h)
      · exact Or.inl (Or.inr ⟨rfl, h2⟩)
      · exact Or.inr ⟨h1, h2⟩

theorem foldl_neigh_visited_false (t : Nat) (ds : List Nat) (s : Shared) (v : Nat) :
    (ds.foldl (fun acc d => __sssp_neigh_iter d t acc) s).visited v = false ↔
      s.visited v = false ∧ ¬ (v ∈ ds ∧ v ≠ t) := by
  rw [← Bool.not_eq_true, foldl_neigh_visited, not_or, Bool.not_eq_true]

theorem foldl_neigh_qnext (t : Nat) (ds : List Nat) (s : Shared) (v : Nat) :
    v ∈ (ds.foldl (fun acc d => __sssp_neigh_iter d t acc) s).qnext ↔
      v ∈ s.qnext ∨ (v ∈ ds ∧ s.visited v = false ∧ v ≠ t) := by
  induction ds generalizing s with
  | nil => simp
  | cons d ds ih =>
    rw [List.foldl_cons, ih, neigh_iter_qnext, List.mem_cons,
      ← Bool.not_eq_true ((__sssp_neigh_iter d t s).visited v), neigh_iter_visited, not_or,
      Bool.not_eq_true]
    constructor
    · rintro ((h | ⟨rfl, h1, h2⟩) | ⟨h1, ⟨h2, _⟩, h3⟩)
      · exact Or.inl h
      · exact Or.inr ⟨Or.inl rfl, h1, h2⟩
      · exact Or.inr ⟨Or.inr h1, h2, h3⟩
    · rintro (h | ⟨h1, h2, h3⟩)
      · exact Or.inl (Or.inl h)
      · by_cases hvd : v = d
        · subst hvd
          exact Or.inl (Or.inr ⟨rfl, h2, h3⟩)
        · rcases h1 with h1 | h1
          · exact absurd h1 hvd
          · exact Or.inr ⟨h1, ⟨h2, fun hc => hvd hc.1⟩, h3⟩

theorem foldl_neigh_found (t : Nat) (ds : List Nat) (s : Shared) :
    (ds.foldl (fun acc d => __sssp_neigh_iter d t acc) s).found = true ↔
      s.found = true ∨ (t ∈ ds ∧ s.visited t = false) := by
  induction ds generalizing s with
  | nil => simp
  | cons d ds ih =>
    rw [List.foldl_cons, ih, neigh_iter_found, List.mem_cons,
      ← Bool.not_eq_true ((__sssp_neigh_iter d t s).visited t), neigh_iter_visited, not_or,
      Bool.not_eq_true]
    constructor
    · rintro ((h | ⟨rfl, h1⟩) | ⟨h1, h2, _⟩)
      · exact Or.inl h
      · exact Or.inr ⟨Or.inl rfl, h1⟩
      · exact Or.inr ⟨Or.inr h1, h2⟩
    · rintro (h | ⟨h1, h2⟩)
      · exact Or.inl (Or.inl h)
      · by_cases htd : t = d
        · subst htd
          exact Or.inl (Or.inr ⟨rfl, h2⟩)
        · rcases h1 with h1 | h1
          · exact absurd h1 htd
          · exact Or.inr ⟨h1, h2, fun hc => htd hc.1⟩

/-! ### One level: the fold of `expandLevel` -/

theorem expandLevel_cons (g : Graph) (u : Nat) (q : Set) (t : Nat) (s : Shared) :
    expandLevel g (u :: q) t s = expandLevel g q t (__sssp_iteration g u t s) := rfl

theorem expandLevel_visited (g : Graph) (t : Nat) (q : Set) (s : Shared) (v : Nat) :
    (expandLevel g q t s).visited v = true ↔
      s.visited v = true ∨ (v ≠ t ∧ ∃ u, u ∈ q ∧ v ∈ g.neighbors u) := by
  induction q generalizing s with
  | nil => simp [expandLevel]
  | cons u q ih =>
    rw [expandLevel_cons, ih]
    unfold __sssp_iteration
    rw [foldl_neigh_visited]
    constructor
    · rintro ((h | ⟨h1, h2⟩) | ⟨h1, w, hw, h2⟩)
      · exact Or.inl h
      · exact Or.inr ⟨h2, u, List.mem_cons_self _ _, h1⟩
      · exact Or.inr ⟨h1, w, List.mem_cons_of_mem _ hw, h2⟩
    · rintro (h | ⟨h1, w, hw, h2⟩)
      · exact Or.inl (Or.inl h)
      · rcases List.mem_cons.mp hw with rfl | hw
        · exact Or.inl (Or.inr ⟨h2, h1⟩)
        · exact Or.inr ⟨h1, w, hw, h2⟩

theorem expandLevel_qnext (g : Graph) (t : Nat) (q : Set) (s : Shared) (v : Nat) :
    v ∈ (expandLevel g q t s).qnext ↔
      v ∈ s.qnext ∨ (s.visited v = false ∧ v ≠ t ∧ ∃ u, u ∈ q ∧ v ∈ g.neighbors u) := by
  induction q generalizing s with
  | nil => simp [expandLevel]
  | cons u q ih =>
    rw [expandLevel_cons, ih]
    unfold __sssp_iteration
    rw [foldl_neigh_qnext, foldl_neigh_visited_false]
    constructor
    · rintro ((h | ⟨h1, h2, h3⟩) | ⟨⟨h1, _⟩, h2, w, hw, h3⟩)
      · exact Or.inl h
      · exact Or.inr ⟨h2, h3, u, List.mem_cons_self _ _, h1⟩
      · exact Or.inr ⟨h1, h2, w, List.mem_cons_of_mem _ hw, h3⟩
    · rintro (h | ⟨h1, h2, w, hw, h3⟩)
      · exact Or.inl (Or.inl h)
      · by_cases hv : v ∈ g.neighbors u
        · exact Or.inl (Or.inr ⟨hv, h1, h2⟩)
        · rcases List.mem_cons.mp hw with rfl | hw
          · exact absurd h3 hv
          · exact Or.inr ⟨⟨h1, fun hc => hv hc.1⟩, h2, w, hw, h3⟩

theorem expandLevel_found (g : Graph) (t : Nat) (q : Set) (s : Shared) :
    (expandLevel g q t s).found = true ↔
      s.found = true ∨ (s.visited t = false ∧ ∃ u, u ∈ q ∧ t ∈ g.neighbors u) := by
  induction q generalizing s with
  | nil => simp [expandLevel]
  | cons u q ih =>
    rw [expandLevel_cons, ih]
    unfold __sssp_iteration
    rw [foldl_neigh_found, foldl_neigh_visited_false]
    constructor
    · rintro ((h | ⟨h1, h2⟩) | ⟨⟨h1, _⟩, w, hw, h3⟩)
      · exact Or.inl h
      · exact Or.inr ⟨h2, u, List.mem_cons_self _ _, h1⟩
      · exact Or.inr ⟨h1, w, List.mem_cons_of_mem _ hw, h3⟩
    · rintro (h | ⟨h1, w, hw, h3⟩)
      · exact Or.inl (Or.inl h)
      · rcases List.mem_cons.mp hw with rfl | hw
        · exact Or.inl (Or.inr ⟨h3, h1⟩)
        · exact Or.inr ⟨⟨h1, fun hc => hc.2 rfl⟩, w, hw, h3⟩

/-! ### Walks -/

theorem Walk.zero_iff (g : Graph) (u v : Nat) : Walk g 0 u v ↔ u = v := Iff.rfl

theorem Walk.succ_iff (g : Graph) (k u v : Nat) :
    Walk g (k + 1) u v ↔ ∃ w, Walk g k u w ∧ v ∈ g.neighbors w := Iff.rfl

theorem Walk.append (g : Graph) {a b u w v : Nat} (h1 : Walk g a u w) (h2 : Walk g b w v) :
    Walk g (a + b) u v := by
  induction b generalizing v with
  | zero =>
    have hwv : w = v := h2
    subst hwv
    exact h1
  | succ b ih =>
    obtain ⟨x, hx, hv⟩ := h2
    exact ⟨x, ih hx, hv⟩

theorem Walk.split (g : Graph) (a b : Nat) {u v : Nat} (h : Walk g (a + b) u v) :
    ∃ w, Walk g a u w ∧ Walk g b w v := by
  induction b generalizing v with
  | zero => exact ⟨v, h, rfl⟩
  | succ b ih =>
    obtain ⟨x, hx, hv⟩ := h
    obtain ⟨w, hw1, hw2⟩ := ih hx
    exact ⟨w, hw1, x, hw2, hv⟩

/-! ### The level invariant -/

theorem LevelInv.dest_unvisited {g : Graph} {src dest k : Nat} {q : Set} {s : Shared}
    (h : LevelInv g src dest k q s) : s.visited dest = false := by
  rw [← Bool.not_eq_true, h.visited_iff]
  rintro ⟨j, hj, hw⟩
  exact h.dest_far j hj hw

theorem LevelInv.mem_or_closer {g : Graph} {src dest k : Nat} {q : Set} {s : Shared}
    (h : LevelInv g src dest k q s) {w : Nat} (hw : Walk g k src w) :
    w ∈ q ∨ ∃ j, j < k ∧ Walk g j src w := by
  by_cases hc : ∃ j, j < k ∧ Walk g j src w
  · exact Or.inr hc
  · refine Or.inl ((h.q_iff w).mpr ⟨hw, ?_⟩)
    intro j hj hwj
    exact hc ⟨j, hj, hwj⟩

theorem LevelInv.init (g : Graph) (num_vertices src dest : Nat) (hne : src ≠ dest) :
    LevelInv g src dest 0 (Set.Insert (Set.Create (num_vertices / 2)) src)
      ⟨Set.Create (num_vertices / 2),
        BoolArray.InsertAt (BoolArray.Create num_vertices false) src true,
        BoolArray.Create 1 false 0⟩ := by
  refine ⟨rfl, rfl, ?_, ?_, ?_⟩
  · intro v
    constructor
    · intro hv
      have hvs : v = src := by
        by_contra hc
        simp [BoolArray.InsertAt, BoolArray.Create, hc] at hv
      exact ⟨0, le_refl 0, hvs.symm⟩
    · rintro ⟨j, hj, hw⟩
      have hj0 : j = 0 := Nat.le_zero.mp hj
      subst hj0
      have hsv : src = v := hw
      simp [BoolArray.InsertAt, hsv]
  · intro v
    rw [Set.mem_Insert]
    constructor
    · rintro (hv | hv)
      · simp [Set.Create] at hv
      · exact ⟨hv.symm, fun j hj => absurd hj (Nat.not_lt_zero j)⟩
    · rintro ⟨hw, _⟩
      have hsv : src = v := hw
      exact Or.inr hsv.symm
  · intro j hj hw
    have hj0 : j = 0 := Nat.le_zero.mp hj
    subst hj0
    exact hne hw

theorem LevelInv.found_iff {g : Graph} {src dest k : Nat} {q : Set} {s : Shared}
    (h : LevelInv g src dest k q s) :
    (expandLevel g q dest s).found = true ↔ ∃ u, u ∈ q ∧ dest ∈ g.neighbors u := by
  rw [expandLevel_found, h.not_found, h.dest_unvisited]
  simp

theorem LevelInv.found_dist {g : Graph} {src dest k : Nat} {q : Set} {s : Shared}
    (h : LevelInv g src dest k q s) (hf : (expandLevel g q dest s).found = true) :
    IsDist g src dest (k + 1) := by
  obtain ⟨u, hu, hd⟩ := h.found_iff.mp hf
  refine ⟨⟨u, ((h.q_iff u).mp hu).1, hd⟩, ?_⟩
  intro j hj
  by_contra hc
  exact h.dest_far j (by omega) hj

theorem LevelInv.step {g : Graph} {src dest k : Nat} {q : Set} {s : Shared}
    (h : LevelInv g src dest k q s) (hf : ¬ (expandLevel g q dest s).found = true)
    (hint : Nat) :
    LevelInv g src dest (k + 1) (expandLevel g q dest s).qnext
      { expandLevel g q dest s with qnext := Set.Reset q hint } := by
  have hnb : ∀ u, u ∈ q → dest ∉ g.neighbors u := by
    intro u hu hd
    exact hf (h.found_iff.mpr ⟨u, hu, hd⟩)
  -- a walk of `k + 1` edges ends in a vertex that is visited or a neighbor of the frontier
  have hlast : ∀ v, Walk g (k + 1) src v →
      (∃ j, j ≤ k ∧ Walk g j src v) ∨ (v ≠ dest ∧ ∃ u, u ∈ q ∧ v ∈ g.neighbors u) := by
    rintro v ⟨w, hw, hv⟩
    rcases h.mem_or_closer hw with hwq | ⟨j, hj, hwj⟩
    · refine Or.inr ⟨?_, w, hwq, hv⟩
      rintro rfl
      exact hnb w hwq hv
    · exact Or.inl ⟨j + 1, by omega, w, hwj, hv⟩
  refine ⟨rfl, by simpa using hf, ?_, ?_, ?_⟩
  · intro v
    show (expandLevel g q dest s).visited v = true ↔ _
    rw [expandLevel_visited, h.visited_iff]
    constructor
    · rintro (⟨j, hj, hw⟩ | ⟨_, u, hu, hv⟩)
      · exact ⟨j, by omega, hw⟩
      · exact ⟨k + 1, le_refl _, u, ((h.q_iff u).mp hu).1, hv⟩
    · rintro ⟨j, hj, hw⟩
      by_cases hjk : j ≤ k
      · exact Or.inl ⟨j, hjk, hw⟩
      · have hj1 : j = k + 1 := by omega
        subst hj1
        exact hlast v hw
  · intro v
    rw [expandLevel_qnext, h.qnext_nil, ← Bool.not_eq_true, h.visited_iff]
    constructor
    · rintro (hv | ⟨hnv, _, u, hu, hv⟩)
      · simp at hv
      · refine ⟨⟨u, ((h.q_iff u).mp hu).1, hv⟩, ?_⟩
        intro j hj hw
        exact hnv ⟨j, by omega, hw⟩
    · rintro ⟨hw, hmin⟩
      have hnv : ¬ ∃ j, j ≤ k ∧ Walk g j src v := by
        rintro ⟨j, hj, hwj⟩
        exact hmin j (by omega) hwj
      rcases hlast v hw with hc | ⟨hvd, hu⟩
      · exact absurd hc hnv
      · exact Or.inr ⟨hnv, hvd, hu⟩
  · intro j hj hw
    by_cases hjk : j ≤ k
    · exact h.dest_far j hjk hw
    · have hj1 : j = k + 1 := by omega
      subst hj1
      rcases hlast dest hw with ⟨i, hi, hwi⟩ | ⟨hc, _⟩
      · exact h.dest_far i hi hwi
      · exact hc rfl

theorem LevelInv.exhausted {g : Graph} {src dest k : Nat} {q : Set} {s : Shared}
    (h : LevelInv g src dest k q s) (hq : Set.Size q = 0) : ¬ Reachable g src dest := by
  have hnil : q = [] := List.length_eq_zero.mp hq
  have hall : ∀ m, ∀ j, j ≤ m → ¬ Walk g j src dest := by
    intro m
    induction m with
    | zero =>
      intro j hj hw
      exact h.dest_far j (by omega) hw
    | succ m ih =>
      intro j hj hw
      by_cases hjm : j ≤ m
      · exact ih j hjm hw
      · have hj1 : j = m + 1 := by omega
        subst hj1
        by_cases hmk : m + 1 ≤ k
        · exact h.dest_far _ hmk hw
        · have hsum : m + 1 = k + (m + 1 - k) := by omega
          rw [hsum] at hw
          obtain ⟨w, hw1, hw2⟩ := Walk.split g k (m + 1 - k) hw
          rcases h.mem_or_closer hw1 with hwq | ⟨i, hi, hwi⟩
          · rw [hnil] at hwq
            simp at hwq
          · exact ih (i + (m + 1 - k)) (by omega) (Walk.append g hwi hw2)
  rintro ⟨m, hm⟩
  exact hall m m (le_refl m) hm

/-! ### Unfolding the level loop -/

theorem levelLoop_empty (g : Graph) (n dest fuel k : Nat) (q : Set) (s : Shared)
    (hq : Set.Size q = 0) :
    levelLoop g n dest fuel k q s = some ⟨numeric_limits_infinity, k, q, s⟩ := by
  cases fuel with
  | zero => unfold levelLoop; rw [if_pos hq]
  | succ fuel => unfold levelLoop; rw [if_pos hq]

theorem levelLoop_zero (g : Graph) (n dest k : Nat) (q : Set) (s : Shared)
    (hq : ¬ Set.Size q = 0) : levelLoop g n dest 0 k q s = none := by
  unfold levelLoop; rw [if_neg hq]

theorem levelLoop_found (g : Graph) (n dest fuel k : Nat) (q : Set) (s : Shared)
    (hq : ¬ Set.Size q = 0) (hf : (expandLevel g q dest s).found = true) :
    levelLoop g n dest (fuel + 1) k q s = some ⟨k + 1, k + 1, q, expandLevel g q dest s⟩ := by
  unfold levelLoop
  rw [if_neg hq]
  dsimp only
  rw [if_pos hf]

theorem levelLoop_next (g : Graph) (n dest fuel k : Nat) (q : Set) (s : Shared)
    (hq : ¬ Set.Size q = 0) (hf : ¬ (expandLevel g q dest s).found = true) :
    levelLoop g n dest (fuel + 1) k q s =
      levelLoop g n dest fuel (k + 1) (expandLevel g q dest s).qnext
        { expandLevel g q dest s with qnext := Set.Reset q (n / 2) } := by
  conv_lhs => unfold levelLoop
  rw [if_neg hq]
  dsimp only
  rw [if_neg hf]

/-! ### Partial correctness of the level loop -/

theorem levelLoop_correct (g : Graph) (n src dest : Nat) :
    ∀ (fuel k : Nat) (q : Set) (s : Shared) (o : Outcome),
      LevelInv g src dest k q s → levelLoop g n dest fuel k q s = some o →
      (o.sh.found = true ∧ o.ret = o.level ∧ IsDist g src dest o.level) ∨
      (o.sh.found = false ∧ Set.Size o.q = 0 ∧ o.ret = numeric_limits_infinity ∧
        ¬ Reachable g src dest) := by
  intro fuel
  induction fuel with
  | zero =>
    intro k q s o hinv hrun
    by_cases hq : Set.Size q = 0
    · rw [levelLoop_empty g n dest 0 k q s hq] at hrun
      cases hrun
      exact Or.inr ⟨hinv.not_found, hq, rfl, hinv.exhausted hq⟩
    · rw [levelLoop_zero g n dest k q s hq] at hrun
      cases hrun
  | succ fuel ih =>
    intro k q s o hinv hrun
    by_cases hq : Set.Size q = 0
    · rw [levelLoop_empty g n dest _ k q s hq] at hrun
      cases hrun
      exact Or.inr ⟨hinv.not_found, hq, rfl, hinv.exhausted hq⟩
    · by_cases hf : (expandLevel g q dest s).found = true
      · rw [levelLoop_found g n dest fuel k q s hq hf] at hrun
        cases hrun
        exact Or.inl ⟨hf, rfl, hinv.found_dist hf⟩
      · rw [levelLoop_next g n dest fuel k q s hq hf] at hrun
        exact ih (k + 1) _ _ o (hinv.step hf (n / 2)) hrun

/-! ### Termination of the level loop -/

theorem visitedCount_le (N : Nat) (vis : BoolArray) : visitedCount N vis ≤ N := by
  unfold visitedCount
  calc ((Finset.range N).filter (fun i => vis i = true)).card
      ≤ (Finset.range N).card := Finset.card_filter_le _ _
    _ = N := Finset.card_range N

theorem visitedCount_lt (N : Nat) (vis vis2 : BoolArray)
    (hmono : ∀ i, vis i = true → vis2 i = true) (v : Nat) (hv : v < N)
    (h1 : vis v = false) (h2 : vis2 v = true) : visitedCount N vis < visitedCount N vis2 := by
  unfold visitedCount
  apply Finset.card_lt_card
  rw [Finset.ssubset_iff_of_subset]
  · refine ⟨v, ?_, ?_⟩
    · simp [hv, h2]
    · simp [h1]
  · intro i hi
    rw [Finset.mem_filter] at hi ⊢
    exact ⟨hi.1, hmono i hi.2⟩

theorem expandLevel_new_vertex (g : Graph) (N dest : Nat)
    (hR : ∀ u d, d ∈ g.neighbors u → d < N) (q : Set) (s : Shared) (hs : s.qnext = [])
    (hne : ¬ Set.Size (expandLevel g q dest s).qnext = 0) :
    ∃ v, v < N ∧ s.visited v = false ∧ (expandLevel g q dest s).visited v = true := by
  cases hq : (expandLevel g q dest s).qnext with
  | nil => rw [hq] at hne; exact absurd rfl hne
  | cons v rest =>
    have hv : v ∈ (expandLevel g q dest s).qnext := by rw [hq]; exact List.mem_cons_self _ _
    rw [expandLevel_qnext, hs] at hv
    rcases hv with hv | ⟨h1, h2, u, hu, h3⟩
    · simp at hv
    · refine ⟨v, hR u v h3, h1, ?_⟩
      rw [expandLevel_visited]
      exact Or.inr ⟨h2, u, hu, h3⟩

theorem levelLoop_terminates (g : Graph) (n N dest : Nat)
    (hR : ∀ u d, d ∈ g.neighbors u → d < N) :
    ∀ (fuel k : Nat) (q : Set) (s : Shared), s.qnext = [] →
      (Set.Size q = 0 ∨ N - visitedCount N s.visited < fuel) →
      ∃ o, levelLoop g n dest fuel k q s = some o ∧
        o.level ≤ k + (if Set.Size q = 0 then 0 else N - visitedCount N s.visited + 1) := by
  intro fuel
  induction fuel with
  | zero =>
    intro k q s _ hfuel
    rcases hfuel with hq | hlt
    · exact ⟨⟨numeric_limits_infinity, k, q, s⟩, levelLoop_empty g n dest 0 k q s hq,
        by simp⟩
    · exact absurd hlt (Nat.not_lt_zero _)
  | succ fuel ih =>
    intro k q s hs hfuel
    by_cases hq : Set.Size q = 0
    · exact ⟨⟨numeric_limits_infinity, k, q, s⟩, levelLoop_empty g n dest _ k q s hq,
        by simp⟩
    · have hlt : N - visitedCount N s.visited < fuel + 1 := by
        rcases hfuel with h | h
        · exact absurd h hq
        · exact h
      by_cases hf : (expandLevel g q dest s).found = true
      · refine ⟨⟨k + 1, k + 1, q, expandLevel g q dest s⟩,
          levelLoop_found g n dest fuel k q s hq hf, ?_⟩
        simp only [hq, if_false]
        omega
      · have hstep : Set.Size (expandLevel g q dest s).qnext = 0 ∨
            N - visitedCount N (expandLevel g q dest s).visited < fuel := by
          by_cases hq2 : Set.Size (expandLevel g q dest s).qnext = 0
          · exact Or.inl hq2
          · obtain ⟨v, hvN, hv1, hv2⟩ := expandLevel_new_vertex g N dest hR q s hs hq2
            have hmono : ∀ i, s.visited i = true → (expandLevel g q dest s).visited i = true := by
              intro i hi
              rw [expandLevel_visited]
              exact Or.inl hi
            have h1 := visitedCount_lt N _ _ hmono v hvN hv1 hv2
            have h2 := visitedCount_le N (expandLevel g q dest s).visited
            exact Or.inr (by omega)
        obtain ⟨o, ho, hlev⟩ := ih (k + 1) (expandLevel g q dest s).qnext
          { expandLevel g q dest s with qnext := Set.Reset q (n / 2) } rfl hstep
        refine ⟨o, ?_, ?_⟩
        · rw [levelLoop_next g n dest fuel k q s hq hf]
          exact ho
        · simp only [hq, if_false]
          by_cases hq2 : Set.Size (expandLevel g q dest s).qnext = 0
          · simp only [hq2, if_true] at hlev
            omega
          · simp only [hq2, if_false] at hlev
            obtain ⟨v, hvN, hv1, hv2⟩ := expandLevel_new_vertex g N dest hR q s hs hq2
            have hmono : ∀ i, s.visited i = true → (expandLevel g q dest s).visited i = true := by
              intro i hi
              rw [expandLevel_visited]
              exact Or.inl hi
            have h1 := visitedCount_lt N _ _ hmono v hvN hv1 hv2
            have h2 := visitedCount_le N (expandLevel g q dest s).visited
            omega

/-! ### The identifier bound of a graph -/

theorem le_listSup (l : List Nat) (x : Nat) (hx : x ∈ l) : x ≤ listSup l := by
  induction l with
  | nil => simp at hx
  | cons a l ih =>
    unfold listSup
    rw [List.foldr_cons]
    rcases List.mem_cons.mp hx with rfl | h
    · exact le_max_left _ _
    · exact le_trans (ih h) (le_max_right _ _)

theorem neighbors_lt_idBound (g : Graph) (src u d : Nat) (hd : d ∈ g.neighbors u) :
    d < idBound g src := by
  unfold Graph.neighbors at hd
  cases hl : g.lookup u with
  | none => rw [hl] at hd; simp at hd
  | some ns =>
    rw [hl] at hd
    have hmem : (u, ns) ∈ g := mem_of_lookup_some g u ns hl
    have h1 : d ≤ listSup ns := le_listSup ns d hd
    have h2 : listSup ns ≤ listSup (g.map (fun e => listSup e.2)) :=
      le_listSup _ _ (List.mem_map.mpr ⟨(u, ns), hmem, rfl⟩)
    unfold idBound
    have h3 := le_max_right src (listSup (g.map (fun e => listSup e.2)))
    omega

theorem src_lt_idBound (g : Graph) (src : Nat) : src < idBound g src := by
  unfold idBound
  have h3 := le_max_left src (listSup (g.map (fun e => listSup e.2)))
  omega

/-! ### The whole query -/

theorem sssp_length_outcome_ne (fuel : Nat) (g : Graph) (n src dest : Nat) (hne : src ≠ dest) :
    sssp_length_outcome fuel g n src dest =
      levelLoop g n dest fuel 0 (Set.Insert (Set.Create (n / 2)) src)
        ⟨Set.Create (n / 2), BoolArray.InsertAt (BoolArray.Create n false) src true,
          BoolArray.Create 1 false 0⟩ := by
  unfold sssp_length_outcome __sssp_length
  dsimp only
  rw [if_neg hne]

theorem IsDist.unique {g : Graph} {src dest a b : Nat} (ha : IsDist g src dest a)
    (hb : IsDist g src dest b) : a = b :=
  le_antisymm (ha.2 b hb.1) (hb.2 a ha.1)

/-- With fuel at least `N`, a strict bound of `src` and of all neighbor identifiers, a query
with `src ≠ dest` returns, after at most `N` runs of the loop body, either from the found
branch with the shortest distance or from the exhausted frontier with the sentinel. -/
theorem outcome_exists (g : Graph) (n N src dest : Nat) (hne : src ≠ dest) (hsrc : src < N)
    (hR : ∀ u d, d ∈ g.neighbors u → d < N) (fuel : Nat) (hfuel : N ≤ fuel) :
    ∃ o, sssp_length_outcome fuel g n src dest = some o ∧ o.level ≤ N ∧
      ((o.sh.found = true ∧ o.ret = o.level ∧ IsDist g src dest o.level) ∨
       (o.sh.found = false ∧ Set.Size o.q = 0 ∧ o.ret = numeric_limits_infinity ∧
          ¬ Reachable g src dest)) := by
  rw [sssp_length_outcome_ne fuel g n src dest hne]
  have hcnt : 0 < visitedCount N (BoolArray.InsertAt (BoolArray.Create n false) src true) := by
    have h := visitedCount_lt N (fun _ => false)
      (BoolArray.InsertAt (BoolArray.Create n false) src true)
      (fun i hi => by simp at hi) src hsrc rfl (by simp [BoolArray.InsertAt])
    omega
  have hN := visitedCount_le N (BoolArray.InsertAt (BoolArray.Create n false) src true)
  obtain ⟨o, ho, hlev⟩ := levelLoop_terminates g n N dest hR fuel 0
    (Set.Insert (Set.Create (n / 2)) src)
    ⟨Set.Create (n / 2), BoolArray.InsertAt (BoolArray.Create n false) src true,
      BoolArray.Create 1 false 0⟩ rfl (Or.inr (by dsimp only; omega))
  refine ⟨o, ho, ?_, levelLoop_correct g n src dest fuel 0 _ _ o
    (LevelInv.init g n src dest hne) ho⟩
  have hq : ¬ Set.Size (Set.Insert (Set.Create (n / 2)) src) = 0 := by
    simp [Set.Size, Set.Insert, Set.Create]
  simp only [hq, if_false] at hlev
  omega

/-! ### Facts about the two example graphs -/

theorem pathGraph_neighbors_lt (u d : Nat) (hd : d ∈ pathGraph.neighbors u) : d < 5 := by
  match u with
  | 0 => simp [Graph.neighbors, pathGraph, List.lookup] at hd; omega
  | 1 => simp [Graph.neighbors, pathGraph, List.lookup] at hd; omega
  | 2 => simp [Graph.neighbors, pathGraph, List.lookup] at hd; omega
  | 3 => simp [Graph.neighbors, pathGraph, List.lookup] at hd; omega
  | k + 4 => simp [Graph.neighbors, pathGraph, List.lookup] at hd

theorem pathGraph_walk_from_4 (k v : Nat) (h : Walk pathGraph k 4 v) : v = 4 := by
  induction k generalizing v with
  | zero => exact Eq.symm h
  | succ k ih =>
    obtain ⟨w, hw, hv⟩ := h
    have hw4 : w = 4 := ih w hw
    subst hw4
    simp [Graph.neighbors, pathGraph, List.lookup] at hv

theorem pathGraph_unreachable_4_0 : ¬ Reachable pathGraph 4 0 := by
  rintro ⟨k, hk⟩
  have h := pathGraph_walk_from_4 k 0 hk
  omega

theorem pathGraph_reachable_0_4 : Reachable pathGraph 0 4 :=
  ⟨4, 3, ⟨2, ⟨1, ⟨0, rfl, by decide⟩, by decide⟩, by decide⟩, by decide⟩

/-! ## Claims on the shortest-path engine -/

/-- C1: for every graph and every pair `src ≠ dest` with `dest` reachable from `src`,
`sssp_length` returns (for every fuel from the identifier bound of the graph on) exactly the
number of edges of a shortest path from `src` to `dest`. -/
theorem sssp_length_eq_dist (g : Graph) (n src dest : Nat) (hne : src ≠ dest)
    (hr : Reachable g src dest) :
    ∃ d, IsDist g src dest d ∧
      ∀ fuel, idBound g src ≤ fuel → sssp_length fuel g n src dest = some d := by
  have hrun := outcome_exists g n (idBound g src) src dest hne (src_lt_idBound g src)
    (fun u d hd => neighbors_lt_idBound g src u d hd)
  obtain ⟨o, _, _, ho⟩ := hrun (idBound g src) (le_refl _)
  rcases ho with ⟨_, _, hdist⟩ | ⟨_, _, _, hnr⟩
  · refine ⟨o.level, hdist, ?_⟩
    intro fuel hfuel
    obtain ⟨o2, ho2, _, hcase⟩ := hrun fuel hfuel
    rcases hcase with ⟨_, hret, hdist2⟩ | ⟨_, _, _, hnr⟩
    · unfold sssp_length
      rw [ho2, Option.map_some', hret, IsDist.unique hdist2 hdist]
    · exact absurd hr hnr
  · exact absurd hr hnr

/-- Witness of C1 on the directed path `0 → 1 → 2 → 3 → 4`, together with the values on the
path (`(0,4)` gives `4`) and on the star with center `0` (`(1,2)` gives `2`, `(1,0)` gives
`1`). -/
theorem sssp_length_eq_dist_witness :
    ((0 : Nat) ≠ 4 ∧ Reachable pathGraph 0 4) ∧
    (∃ d, IsDist pathGraph 0 4 d ∧
      ∀ fuel, idBound pathGraph 0 ≤ fuel → sssp_length fuel pathGraph 5 0 4 = some d) ∧
    sssp_length 5 pathGraph 5 0 4 = some 4 ∧
    sssp_length 4 starGraph 4 1 2 = some 2 ∧
    sssp_length 4 starGraph 4 1 0 = some 1 :=
  ⟨⟨by decide, pathGraph_reachable_0_4⟩,
    sssp_length_eq_dist pathGraph 5 0 4 (by decide) pathGraph_reachable_0_4,
    by decide, by decide, by decide⟩

/-- C2 (evaluation at the failing input): on the directed path `0 → 1 → 2 → 3 → 4` vertex `0`
is not reachable from `4`, and the value returned for `(4,0)` is `0`, the same value as the
hop count returned for `(0,0)`. -/
theorem sssp_length_sentinel_collides :
    ¬ Reachable pathGraph 4 0 ∧
    sssp_length 5 pathGraph 5 4 0 = some 0 ∧
    sssp_length 5 pathGraph 5 0 0 = some 0 ∧
    sssp_length 5 pathGraph 5 4 0 = sssp_length 5 pathGraph 5 0 0 :=
  ⟨pathGraph_unreachable_4_0, by decide, by decide, by decide⟩

/-- C3: for every graph and every pair `src ≠ dest` with `dest` not reachable from `src`,
the query ends with the found flag still `false` and the current frontier empty, and the
value returned is `std::numeric_limits<size_t>::infinity()`. -/
theorem sssp_length_unreachable (g : Graph) (n src dest : Nat) (hne : src ≠ dest)
    (hu : ¬ Reachable g src dest) (fuel : Nat) (hfuel : idBound g src ≤ fuel) :
    (∃ o, sssp_length_outcome fuel g n src dest = some o ∧ o.sh.found = false ∧
      Set.Size o.q = 0 ∧ o.ret = numeric_limits_infinity) ∧
    sssp_length fuel g n src dest = some numeric_limits_infinity := by
  obtain ⟨o, ho, _, hcase⟩ := outcome_exists g n (idBound g src) src dest hne
    (src_lt_idBound g src) (fun u d hd => neighbors_lt_idBound g src u d hd) fuel hfuel
  rcases hcase with ⟨_, _, hdist⟩ | ⟨hnf, hq, hret, _⟩
  · exact absurd ⟨o.level, hdist.1⟩ hu
  · refine ⟨⟨o, ho, hnf, hq, hret⟩, ?_⟩
    unfold sssp_length
    rw [ho, Option.map_some', hret]

/-- Witness of C3 on the directed path `0 → 1 → 2 → 3 → 4` for the call `(4,0)`; the sentinel
is returned after one level. -/
theorem sssp_length_unreachable_witness :
    ((4 : Nat) ≠ 0 ∧ ¬ Reachable pathGraph 4 0 ∧ idBound pathGraph 4 ≤ 5) ∧
    ((∃ o, sssp_length_outcome 5 pathGraph 5 4 0 = some o ∧ o.sh.found = false ∧
      Set.Size o.q = 0 ∧ o.ret = numeric_limits_infinity) ∧
    sssp_length 5 pathGraph 5 4 0 = some numeric_limits_infinity) ∧
    (sssp_length_outcome 5 pathGraph 5 4 0).map Outcome.level = some 1 :=
  ⟨⟨by decide, pathGraph_unreachable_4_0, by decide⟩,
    sssp_length_unreachable pathGraph 5 4 0 (by decide) pathGraph_unreachable_4_0 5
      (by decide),
    by decide⟩

/-- C4: for every graph and every vertex `v`, `__sssp_length` on `(v, v)` returns `0` with
the frontiers, the visited array and the found flag it was given unchanged, whatever the
graph and the fuel, and `sssp_length` returns `0`. -/
theorem sssp_length_self (fuel : Nat) (g : Graph) (n : Nat) (to_visit_0 to_visit_1 : Set)
    (visited : BoolArray) (found : Bool) (v : Nat) :
    __sssp_length fuel g n to_visit_0 to_visit_1 visited found v v =
        some ⟨0, 0, to_visit_0, ⟨to_visit_1, visited, found⟩⟩ ∧
    sssp_length fuel g n v v = some 0 := by
  constructor
  · unfold __sssp_length
    rw [if_pos rfl]
  · unfold sssp_length sssp_length_outcome __sssp_length
    dsimp only
    rw [if_pos rfl]
    rfl

/-- C5: when `src` and all neighbor identifiers are smaller than `n`, the query returns for
every fuel of at least `n` after at most `n` runs of the loop body; and every level that
starts with an empty next frontier and leaves it non-empty marks a vertex that was not
visited before. -/
theorem sssp_length_terminates (g : Graph) (n src dest : Nat) (hsrc : src < n)
    (hnb : ∀ u d, d ∈ g.neighbors u → d < n) :
    (∀ fuel, n ≤ fuel →
      ∃ o, sssp_length_outcome fuel g n src dest = some o ∧ o.level ≤ n) ∧
    (∀ (q : Set) (s : Shared), s.qnext = [] →
      ¬ Set.Size (expandLevel g q dest s).qnext = 0 →
      ∃ v, v < n ∧ s.visited v = false ∧ (expandLevel g q dest s).visited v = true) := by
  constructor
  · intro fuel hfuel
    by_cases hne : src = dest
    · subst hne
      refine ⟨⟨0, 0, Set.Create (n / 2),
        ⟨Set.Create (n / 2), BoolArray.Create n false, BoolArray.Create 1 false 0⟩⟩, ?_, ?_⟩
      · unfold sssp_length_outcome __sssp_length
        dsimp only
        rw [if_pos rfl]
      · exact Nat.zero_le n
    · obtain ⟨o, ho, hlev, _⟩ := outcome_exists g n n src dest hne hsrc hnb fuel hfuel
      exact ⟨o, ho, hlev⟩
  · intro q s hs hq
    exact expandLevel_new_vertex g n dest hnb q s hs hq

/-- Witness of C5 on the directed path `0 → 1 → 2 → 3 → 4` with `n = 5`. -/
theorem sssp_length_terminates_witness :
    ((0 : Nat) < 5 ∧ ∀ u d, d ∈ pathGraph.neighbors u → d < 5) ∧
    ((∀ fuel, 5 ≤ fuel →
      ∃ o, sssp_length_outcome fuel pathGraph 5 0 4 = some o ∧ o.level ≤ 5) ∧
    (∀ (q : Set) (s : Shared), s.qnext = [] →
      ¬ Set.Size (expandLevel pathGraph q 4 s).qnext = 0 →
      ∃ v, v < 5 ∧ s.visited v = false ∧ (expandLevel pathGraph q 4 s).visited v = true)) :=
  ⟨⟨by decide, pathGraph_neighbors_lt⟩,
    sssp_length_terminates pathGraph 5 0 4 (by decide) pathGraph_neighbors_lt⟩

/-! ## Lemmas on `ElementInserter` -/

theorem foldl_Insert_mem {SrcAttrT : Type} (f : Nat → Nat) (l : List Nat)
    (lhs : AttrEdgesPair SrcAttrT) (x : Nat) :
    x ∈ (l.foldl (fun acc i => { acc with neighbors_ := Set.Insert acc.neighbors_ (f i) })
        lhs).neighbors_ ↔
      x ∈ lhs.neighbors_ ∨ ∃ i, i ∈ l ∧ f i = x := by
  induction l generalizing lhs with
  | nil => simp
  | cons a l ih =>
    rw [List.foldl_cons, ih]
    dsimp only
    rw [Set.mem_Insert]
    constructor
    · rintro ((h | h) | ⟨i, hi, h⟩)
      · exact Or.inl h
      · exact Or.inr ⟨a, List.mem_cons_self _ _, h.symm⟩
      · exact Or.inr ⟨i, List.mem_cons_of_mem _ hi, h⟩
    · rintro (h | ⟨i, hi, h⟩)
      · exact Or.inl (Or.inl h)
      · rcases List.mem_cons.mp hi with rfl | hi
        · exact Or.inl (Or.inr h.symm)
        · exact Or.inr ⟨i, hi, h⟩

theorem InsertFlatEdgeList_mem {SrcAttrT : Type} (lhs : AttrEdgesPair SrcAttrT)
    (values : FlatEdgeList) (x : Nat) :
    x ∈ (ElementInserter.InsertFlatEdgeList lhs values).neighbors_ ↔
      (values.overwrite = false ∧ x ∈ lhs.neighbors_) ∨
        ∃ i, i < values.numValues ∧ values.values i = x := by
  unfold ElementInserter.InsertFlatEdgeList
  dsimp only
  rw [foldl_Insert_mem]
  simp only [List.mem_range]
  cases values.overwrite with
  | true => simp [Set.Reset]
  | false => simp

theorem InsertLocalEdgeListChunk_mem {SrcAttrT : Type} (lhs : AttrEdgesPair SrcAttrT)
    (chunk : LocalEdgeListChunk) (x : Nat) :
    x ∈ (ElementInserter.InsertLocalEdgeListChunk lhs chunk).neighbors_ ↔
      (chunk.overwrite = false ∧ x ∈ lhs.neighbors_) ∨
        ∃ i, i < min chunk.numDest chunk.destinations.length ∧
          chunk.destinations.getD i 0 = x := by
  unfold ElementInserter.InsertLocalEdgeListChunk
  dsimp only
  rw [foldl_Insert_mem (fun i => chunk.destinations.getD i 0)]
  simp only [List.mem_range]
  cases chunk.overwrite with
  | true => simp [Set.Reset]
  | false => simp

theorem ctor_length (sizeofDestT : Nat) (uninit : Nat → Nat) (numDest : Nat) (ow : Bool)
    (d : Nat → Nat) :
    (LocalEdgeListChunk.ctor sizeofDestT uninit numDest ow d).destinations.length =
      kEdgeListChunkSize_ sizeofDestT := by
  simp [LocalEdgeListChunk.ctor]

theorem ctor_getD (sizeofDestT : Nat) (uninit : Nat → Nat) (numDest : Nat) (ow : Bool)
    (d : Nat → Nat) (i : Nat) (hi : i < min numDest (kEdgeListChunkSize_ sizeofDestT)) :
    (LocalEdgeListChunk.ctor sizeofDestT uninit numDest ow d).destinations.getD i 0 = d i := by
  have hcap : i < kEdgeListChunkSize_ sizeofDestT := lt_of_lt_of_le hi (min_le_right _ _)
  have hnum : i < numDest := lt_of_lt_of_le hi (min_le_left _ _)
  simp [LocalEdgeListChunk.ctor, List.getD_eq_getElem?_getD, List.getElem?_map,
    List.getElem?_range hcap, hnum, hcap]

theorem ctor_chunk_mem {SrcAttrT : Type} (lhs : AttrEdgesPair SrcAttrT) (sizeofDestT : Nat)
    (uninit : Nat → Nat) (numDest : Nat) (ow : Bool) (d : Nat → Nat) (x : Nat) :
    x ∈ (ElementInserter.InsertLocalEdgeListChunk lhs
        (LocalEdgeListChunk.ctor sizeofDestT uninit numDest ow d)).neighbors_ ↔
      (ow = false ∧ x ∈ lhs.neighbors_) ∨
        ∃ i, i < min numDest (kEdgeListChunkSize_ sizeofDestT) ∧ d i = x := by
  rw [InsertLocalEdgeListChunk_mem, ctor_length]
  have hnum : (LocalEdgeListChunk.ctor sizeofDestT uninit numDest ow d).numDest = numDest := rfl
  have how : (LocalEdgeListChunk.ctor sizeofDestT uninit numDest ow d).overwrite = ow := rfl
  rw [hnum, how]
  constructor
  · rintro (h | ⟨i, hi, h⟩)
    · exact Or.inl h
    · rw [ctor_getD sizeofDestT uninit numDest ow d i hi] at h
      exact Or.inr ⟨i, hi, h⟩
  · rintro (h | ⟨i, hi, h⟩)
    · exact Or.inl h
    · refine Or.inr ⟨i, hi, ?_⟩
      rw [ctor_getD sizeofDestT uninit numDest ow d i hi]
      exact h

theorem InsertOp.apply_mem {SrcAttrT : Type} (lhs : AttrEdgesPair SrcAttrT) (op : InsertOp)
    (hop : op.overwrites = false) (x : Nat) :
    x ∈ (InsertOp.apply lhs op).neighbors_ ↔ x ∈ lhs.neighbors_ ∨ op.adds x := by
  cases op with
  | value v =>
    show x ∈ Set.Insert lhs.neighbors_ v ↔ _
    rw [Set.mem_Insert]
    rfl
  | flat values =>
    have how : values.overwrite = false := hop
    show x ∈ (ElementInserter.InsertFlatEdgeList lhs values).neighbors_ ↔ _
    rw [InsertFlatEdgeList_mem]
    simp [how, InsertOp.adds]
  | chunk c =>
    have how : c.overwrite = false := hop
    show x ∈ (ElementInserter.InsertLocalEdgeListChunk lhs c).neighbors_ ↔ _
    rw [InsertLocalEdgeListChunk_mem]
    simp [how, InsertOp.adds]

theorem applyOps_mem {SrcAttrT : Type} (ops : List InsertOp) (lhs : AttrEdgesPair SrcAttrT)
    (hops : ∀ op, op ∈ ops → op.overwrites = false) (x : Nat) :
    x ∈ (applyOps lhs ops).neighbors_ ↔ x ∈ lhs.neighbors_ ∨ ∃ op, op ∈ ops ∧ op.adds x := by
  induction ops generalizing lhs with
  | nil => simp [applyOps]
  | cons a ops ih =>
    have ha : a.overwrites = false := hops a (List.mem_cons_self _ _)
    have hrest : ∀ op, op ∈ ops → op.overwrites = false :=
      fun op hop => hops op (List.mem_cons_of_mem _ hop)
    show x ∈ (applyOps (InsertOp.apply lhs a) ops).neighbors_ ↔ _
    rw [ih (InsertOp.apply lhs a) hrest, InsertOp.apply_mem lhs a ha]
    constructor
    · rintro ((h | h) | ⟨op, hop, h⟩)
      · exact Or.inl h
      · exact Or.inr ⟨a, List.mem_cons_self _ _, h⟩
      · exact Or.inr ⟨op, List.mem_cons_of_mem _ hop, h⟩
    · rintro (h | ⟨op, hop, h⟩)
      · exact Or.inl (Or.inl h)
      · rcases List.mem_cons.mp hop with rfl | hop
        · exact Or.inl (Or.inr h)
        · exact Or.inr ⟨op, hop, h⟩

/-! ## Claims on the attributed edge index -/

/-- C6: chunk bulk insertion with `overwrite = true` leaves exactly the destinations
`d[i]` with `i < min(numDest, kEdgeListChunkSize_)` in the neighbor set, whatever the prior
set, the count and the contents of the array slots that the constructor does not write. -/
theorem chunk_insert_overwrite {SrcAttrT : Type} (lhs : AttrEdgesPair SrcAttrT)
    (sizeofDestT : Nat) (uninit : Nat → Nat) (numDest : Nat) (d : Nat → Nat) (x : Nat) :
    x ∈ (ElementInserter.InsertLocalEdgeListChunk lhs
        (LocalEdgeListChunk.ctor sizeofDestT uninit numDest true d)).neighbors_ ↔
      ∃ i, i < min numDest (kEdgeListChunkSize_ sizeofDestT) ∧ d i = x := by
  rw [ctor_chunk_mem]
  simp

/-- C7: chunk bulk insertion with `overwrite = false` leaves the union of the prior neighbor
set and the destinations `d[i]` with `i < min(numDest, kEdgeListChunkSize_)`. -/
theorem chunk_insert_union {SrcAttrT : Type} (lhs : AttrEdgesPair SrcAttrT)
    (sizeofDestT : Nat) (uninit : Nat → Nat) (numDest : Nat) (d : Nat → Nat) (x : Nat) :
    x ∈ (ElementInserter.InsertLocalEdgeListChunk lhs
        (LocalEdgeListChunk.ctor sizeofDestT uninit numDest false d)).neighbors_ ↔
      x ∈ lhs.neighbors_ ∨ ∃ i, i < min numDest (kEdgeListChunkSize_ sizeofDestT) ∧ d i = x := by
  rw [ctor_chunk_mem]
  simp

/-- C8: flat-list bulk insertion leaves (the empty set if `overwrite`, else the prior set)
together with every `values[i]`, `i < numValues`, without truncation. -/
theorem flat_insert_contents {SrcAttrT : Type} (lhs : AttrEdgesPair SrcAttrT)
    (values : Nat → Nat) (numValues : Nat) (overwrite : Bool) (x : Nat) :
    x ∈ (ElementInserter.InsertFlatEdgeList lhs ⟨values, numValues, overwrite⟩).neighbors_ ↔
      x ∈ (if overwrite = true then [] else lhs.neighbors_) ∨
        ∃ i, i < numValues ∧ values i = x := by
  rw [InsertFlatEdgeList_mem]
  cases overwrite with
  | true => simp
  | false => simp

/-- C9 (counterexample): inserting `1` and then a flat list `[2]` with `overwrite = true`
leaves `1` out of the neighbor set, while the same two operations in the other order keep
`1` in it. -/
theorem insert_order_matters :
    List.Perm opsInsertThenOverwrite opsOverwriteThenInsert ∧
    (applyOps emptyPair opsInsertThenOverwrite).neighbors_ = [2] ∧
    (applyOps emptyPair opsOverwriteThenInsert).neighbors_ = [2, 1] ∧
    ¬ ((1 : Nat) ∈ (applyOps emptyPair opsInsertThenOverwrite).neighbors_ ↔
        (1 : Nat) ∈ (applyOps emptyPair opsOverwriteThenInsert).neighbors_) :=
  ⟨List.Perm.swap _ _ _, by decide, by decide, by decide⟩

/-- C9 (amended): for every initial neighbor set and every sequence of `ElementInserter`
operations none of which has its overwrite flag set, every permutation of the sequence
leaves the same neighbor-set contents. -/
theorem insert_order_independent {SrcAttrT : Type} (lhs : AttrEdgesPair SrcAttrT)
    (ops1 ops2 : List InsertOp) (hperm : List.Perm ops1 ops2)
    (hops : ∀ op, op ∈ ops1 → op.overwrites = false) (x : Nat) :
    x ∈ (applyOps lhs ops1).neighbors_ ↔ x ∈ (applyOps lhs ops2).neighbors_ := by
  have hops2 : ∀ op, op ∈ ops2 → op.overwrites = false :=
    fun op hop => hops op (hperm.mem_iff.mpr hop)
  rw [applyOps_mem ops1 lhs hops, applyOps_mem ops2 lhs hops2]
  constructor
  · rintro (h | ⟨op, hop, h⟩)
    · exact Or.inl h
    · exact Or.inr ⟨op, hperm.mem_iff.mp hop, h⟩
  · rintro (h | ⟨op, hop, h⟩)
    · exact Or.inl h
    · exact Or.inr ⟨op, hperm.mem_iff.mpr hop, h⟩

/-- Witness of C9 (amended) on two operations without overwrite, in both orders. -/
theorem insert_order_independent_witness :
    (List.Perm opsInsertThenUnion opsUnionThenInsert ∧
      ∀ op, op ∈ opsInsertThenUnion → op.overwrites = false) ∧
    ((1 : Nat) ∈ (applyOps emptyPair opsInsertThenUnion).neighbors_ ↔
      (1 : Nat) ∈ (applyOps emptyPair opsUnionThenInsert).neighbors_) ∧
    (applyOps emptyPair opsInsertThenUnion).neighbors_ = [1, 2] ∧
    (applyOps emptyPair opsUnionThenInsert).neighbors_ = [2, 1] :=
  ⟨⟨List.Perm.swap _ _ _, by simp [opsInsertThenUnion, InsertOp.overwrites]⟩,
    insert_order_independent emptyPair opsInsertThenUnion opsUnionThenInsert
      (List.Perm.swap _ _ _) (by simp [opsInsertThenUnion, InsertOp.overwrites]) 1,
    by decide, by decide⟩

/-- C10: the out-parameter form of `GetVertexAttributes` returns `true` exactly when `src`
has an entry in `edgeList_`, and then writes that entry's attribute; otherwise it returns
`false` and leaves the out-value as it was; the storage is unchanged in both cases. -/
theorem GetVertexAttributesOut_spec {SrcAttrT : Type}
    (st : AttributedEdgeIndexStorage SrcAttrT) (src : Nat) (a : SrcAttrT) :
    ((st.GetVertexAttributesOut src a).1 = true ↔ ∃ e, (src, e) ∈ st.edgeList_) ∧
    ((st.GetVertexAttributesOut src a).1 = true →
      ∃ e, (src, e) ∈ st.edgeList_ ∧ LocalHashmap.Lookup st.edgeList_ src = some e ∧
        (st.GetVertexAttributesOut src a).2.1 = e.attributes_) ∧
    ((st.GetVertexAttributesOut src a).1 = false → (st.GetVertexAttributesOut src a).2.1 = a) ∧
    (st.GetVertexAttributesOut src a).2.2 = st := by
  unfold AttributedEdgeIndexStorage.GetVertexAttributesOut LocalHashmap.Lookup
  cases hl : st.edgeList_.lookup src with
  | some entry =>
    have hmem := mem_of_lookup_some st.edgeList_ src entry hl
    exact ⟨⟨fun _ => ⟨entry, hmem⟩, fun _ => rfl⟩, fun _ => ⟨entry, hmem, rfl, rfl⟩,
      fun h => by simp at h, rfl⟩
  | none =>
    refine ⟨⟨fun h => by simp at h, ?_⟩, fun h => by simp at h, fun _ => rfl, rfl⟩
    rintro ⟨e, he⟩
    obtain ⟨e2, he2⟩ := lookup_of_mem st.edgeList_ src e he
    rw [hl] at he2
    cases he2

/-! ## Lemmas on `LocalHashmap.Update` -/

theorem Lookup_Update_self {ValueT : Type} (f : ValueT → ValueT) (key : Nat)
    (m : List (Nat × ValueT)) :
    LocalHashmap.Lookup (LocalHashmap.Update f key m) key =
      (LocalHashmap.Lookup m key).map f := by
  unfold LocalHashmap.Lookup
  induction m with
  | nil => rfl
  | cons a m ih =>
    obtain ⟨k, v⟩ := a
    unfold LocalHashmap.Update
    by_cases hk : key = k
    · rw [if_pos hk]
      subst hk
      simp [List.lookup_cons]
    · rw [if_neg hk]
      have hb : (key == k) = false := by simpa using hk
      rw [List.lookup_cons, List.lookup_cons, hb]
      exact ih

theorem Lookup_Update_other {ValueT : Type} (f : ValueT → ValueT) (key other : Nat)
    (hne : other ≠ key) (m : List (Nat × ValueT)) :
    LocalHashmap.Lookup (LocalHashmap.Update f key m) other = LocalHashmap.Lookup m other := by
  unfold LocalHashmap.Lookup
  induction m with
  | nil => rfl
  | cons a m ih =>
    obtain ⟨k, v⟩ := a
    unfold LocalHashmap.Update
    by_cases hk : key = k
    · rw [if_pos hk]
      subst hk
      have hb : (other == key) = false := by simpa using hne
      rw [List.lookup_cons, List.lookup_cons, hb]
    · rw [if_neg hk]
      rw [List.lookup_cons, List.lookup_cons, ih]

theorem Update_keys {ValueT : Type} (f : ValueT → ValueT) (key : Nat)
    (m : List (Nat × ValueT)) :
    (LocalHashmap.Update f key m).map Prod.fst = m.map Prod.fst := by
  induction m with
  | nil => rfl
  | cons a m ih =>
    obtain ⟨k, v⟩ := a
    unfold LocalHashmap.Update
    by_cases hk : key = k
    · rw [if_pos hk]
      rfl
    · rw [if_neg hk, List.map_cons, List.map_cons, ih]

/-! ## Claims on attribute access and construction -/

/-- C11 (evaluation at the failing input): with the attribute type `std::nullptr_t` and an
entry for source `0`, the out-parameter form of `GetVertexAttributes` returns `true` while
the reference-returning form returns the null pointer, not the address of the stored
attribute; for the absent source `3` both forms report absence. -/
theorem GetVertexAttributes_forms_disagree :
    (nullptrStorage.GetVertexAttributesOut 0 ()).1 = true ∧
    nullptrStorage.GetVertexAttributes nullptrToPtr 0 = AttrPtr.null ∧
    nullptrStorage.GetVertexAttributes nullptrToPtr 0 ≠ AttrPtr.stored 0 ∧
    (nullptrStorage.GetVertexAttributesOut 3 ()).1 = false ∧
    nullptrStorage.GetVertexAttributes nullptrToPtr 3 = AttrPtr.null :=
  ⟨by decide, by decide, by decide, by decide, by decide⟩

/-- C12: `VertexAttributesApply` on a source without entry returns the storage and the extra
arguments as they were (the callback is not run); on a source with an entry the callback is
run once on `(src, stored attribute, args)`, its results are the entry's attribute and the
extra arguments afterwards, the entry's neighbor set and every other source's entry are
unchanged, and no key is added or removed.  `CallVertexAttributesApplyFun` does the same.
With the logging callback on the storage `natStorage` the log holds exactly one record for
source `0` and none for the absent source `3`. -/
theorem VertexAttributesApply_spec {SrcAttrT Args : Type}
    (st : AttributedEdgeIndexStorage SrcAttrT) (src : Nat)
    (function : Nat → SrcAttrT → Args → SrcAttrT × Args) (args : Args) :
    (LocalHashmap.Lookup st.edgeList_ src = none →
      st.VertexAttributesApply src function args = (st, args)) ∧
    (∀ entry, LocalHashmap.Lookup st.edgeList_ src = some entry →
      (st.VertexAttributesApply src function args).2 =
        (function src entry.attributes_ args).2 ∧
      LocalHashmap.Lookup (st.VertexAttributesApply src function args).1.edgeList_ src =
        some ⟨(function src entry.attributes_ args).1, entry.neighbors_⟩ ∧
      (∀ other, other ≠ src →
        LocalHashmap.Lookup (st.VertexAttributesApply src function args).1.edgeList_ other =
          LocalHashmap.Lookup st.edgeList_ other) ∧
      (st.VertexAttributesApply src function args).1.edgeList_.map Prod.fst =
        st.edgeList_.map Prod.fst) ∧
    st.CallVertexAttributesApplyFun src function args =
      st.VertexAttributesApply src function args ∧
    (natStorage.VertexAttributesApply 0 loggingFun []).2 = [(0, 7)] ∧
    (natStorage.VertexAttributesApply 0 loggingFun []).1.edgeList_ =
      [(0, ⟨8, [1, 2]⟩), (5, ⟨9, [0]⟩)] ∧
    (natStorage.VertexAttributesApply 3 loggingFun []).2 = [] := by
  refine ⟨?_, ?_, rfl, by decide, rfl, by decide⟩
  · intro h
    unfold AttributedEdgeIndexStorage.VertexAttributesApply
    rw [h]
  · intro entry h
    unfold AttributedEdgeIndexStorage.VertexAttributesApply
    rw [h]
    dsimp only
    refine ⟨rfl, ?_, ?_, ?_⟩
    · rw [Lookup_Update_self, h]
      rfl
    · intro other hne
      exact Lookup_Update_other _ src other hne st.edgeList_
    · exact Update_keys _ src st.edgeList_

/-- C13: for every `numVertices` and every positive entries-per-bucket constant `K` the
storage is constructed with `max (numVertices / K) 1` buckets, which is at least `1` and
equals `numVertices / K` whenever `numVertices ≥ K`. -/
theorem numBuckets_spec (K numVertices : Nat) (hK : 0 < K) :
    AttributedEdgeIndexStorage.numBuckets K numVertices = max (numVertices / K) 1 ∧
    1 ≤ AttributedEdgeIndexStorage.numBuckets K numVertices ∧
    (numVertices < K → AttributedEdgeIndexStorage.numBuckets K numVertices = 1) ∧
    (K ≤ numVertices → AttributedEdgeIndexStorage.numBuckets K numVertices = numVertices / K) := by
  unfold AttributedEdgeIndexStorage.numBuckets
  refine ⟨rfl, le_max_right _ _, ?_, ?_⟩
  · intro h
    rw [Nat.div_eq_of_lt h]
    rfl
  · intro h
    have hpos : 1 ≤ numVertices / K := Nat.div_pos h hK
    exact max_eq_left hpos

/-- Witness of C13 with `K = 1024`: `4096` vertices give `4` buckets. -/
theorem numBuckets_spec_witness :
    (0 : Nat) < 1024 ∧
    (AttributedEdgeIndexStorage.numBuckets 1024 4096 = max (4096 / 1024) 1 ∧
    1 ≤ AttributedEdgeIndexStorage.numBuckets 1024 4096 ∧
    (4096 < 1024 → AttributedEdgeIndexStorage.numBuckets 1024 4096 = 1) ∧
    (1024 ≤ 4096 → AttributedEdgeIndexStorage.numBuckets 1024 4096 = 4096 / 1024)) ∧
    AttributedEdgeIndexStorage.numBuckets 1024 4096 = 4 ∧
    AttributedEdgeIndexStorage.numBuckets 1024 0 = 1 ∧
    AttributedEdgeIndexStorage.numBuckets 1024 1023 = 1 :=
  ⟨by decide, numBuckets_spec 1024 4096 (by decide), by decide, by decide, by decide⟩

/-- C14: for every destination size `s` with `1 ≤ s ≤ 3072` the chunk capacity is
`3072 / s`, a full chunk fits in 3072 bytes (`capacity * s ≤ 3072`) and one more destination
does not (`3072 < (capacity + 1) * s`); for 8-byte identifiers the capacity is `384`. -/
theorem kEdgeListChunkSize_spec (s : Nat) (h1 : 1 ≤ s) (h2 : s ≤ 3072) :
    kEdgeListChunkSize_ s = 3072 / s ∧
    1 ≤ kEdgeListChunkSize_ s ∧
    kEdgeListChunkSize_ s * s ≤ 3072 ∧
    3072 < (kEdgeListChunkSize_ s + 1) * s ∧
    kEdgeListChunkSize_ 8 = 384 := by
  unfold kEdgeListChunkSize_
  refine ⟨rfl, Nat.div_pos h2 h1, Nat.div_mul_le_self 3072 s, ?_, by decide⟩
  have hmod : 3072 % s < s := Nat.mod_lt 3072 h1
  have hdm : s * (3072 / s) + 3072 % s = 3072 := Nat.div_add_mod 3072 s
  calc 3072 = s * (3072 / s) + 3072 % s := hdm.symm
    _ < s * (3072 / s) + s := Nat.add_lt_add_left hmod _
    _ = (3072 / s + 1) * s := by ring

/-- Witness of C14 for 8-byte destination identifiers. -/
theorem kEdgeListChunkSize_spec_witness :
    ((1 : Nat) ≤ 8 ∧ (8 : Nat) ≤ 3072) ∧
    (kEdgeListChunkSize_ 8 = 3072 / 8 ∧
    1 ≤ kEdgeListChunkSize_ 8 ∧
    kEdgeListChunkSize_ 8 * 8 ≤ 3072 ∧
    3072 < (kEdgeListChunkSize_ 8 + 1) * 8 ∧
    kEdgeListChunkSize_ 8 = 384) :=
  ⟨⟨by decide, by decide⟩, kEdgeListChunkSize_spec 8 (by decide) (by decide)⟩

/-! ## Claims on the per-neighbor visit -/

/-- C16: the contract of `__sssp_neigh_iter` for every state, target and neighbor `d`: (1) a
visited `d` leaves the state unchanged; (2) an unvisited `d` equal to the target sets the
found flag and leaves the visited array and the next frontier unchanged; (3) any other
unvisited `d` is inserted into the next frontier and marked visited, while the found flag and
every other visited slot are unchanged. -/
theorem neigh_iter_contract (s : Shared) (target d : Nat) :
    (s.visited d = true → __sssp_neigh_iter d target s = s) ∧
    (s.visited d = false → d = target →
      (__sssp_neigh_iter d target s).found = true ∧
      (__sssp_neigh_iter d target s).visited = s.visited ∧
      (__sssp_neigh_iter d target s).qnext = s.qnext) ∧
    (s.visited d = false → d ≠ target →
      (__sssp_neigh_iter d target s).qnext = Set.Insert s.qnext d ∧
      (∀ x, x ∈ (__sssp_neigh_iter d target s).qnext ↔ x ∈ s.qnext ∨ x = d) ∧
      (__sssp_neigh_iter d target s).visited d = true ∧
      (∀ v, v ≠ d → (__sssp_neigh_iter d target s).visited v = s.visited v) ∧
      (__sssp_neigh_iter d target s).found = s.found) := by
  refine ⟨?_, ?_, ?_⟩
  · intro h
    unfold __sssp_neigh_iter
    rw [if_pos h]
  · intro h ht
    have hn : ¬ s.visited d = true := by simp [h]
    unfold __sssp_neigh_iter
    rw [if_neg hn, if_pos ht]
    exact ⟨rfl, rfl, rfl⟩
  · intro h ht
    have hn : ¬ s.visited d = true := by simp [h]
    unfold __sssp_neigh_iter
    rw [if_neg hn, if_neg ht]
    refine ⟨rfl, ?_, ?_, ?_, rfl⟩
    · intro x
      exact Set.mem_Insert s.qnext d x
    · simp [BoolArray.InsertAt]
    · intro v hv
      simp [BoolArray.InsertAt, hv]

/-- C18: visiting the same neighbor twice in a row leaves the same state as visiting it
once. -/
theorem neigh_iter_idempotent (s : Shared) (target d : Nat) :
    __sssp_neigh_iter d target (__sssp_neigh_iter d target s) = __sssp_neigh_iter d target s := by
  by_cases h1 : s.visited d = true
  · have h : __sssp_neigh_iter d target s = s := by
      unfold __sssp_neigh_iter
      rw [if_pos h1]
    rw [h, h]
  · by_cases h2 : d = target
    · have h : __sssp_neigh_iter d target s = { s with found := true } := by
        unfold __sssp_neigh_iter
        rw [if_neg h1, if_pos h2]
      rw [h]
      unfold __sssp_neigh_iter
      rw [if_neg h1, if_pos h2]
    · have h : __sssp_neigh_iter d target s =
          { s with qnext := Set.Insert s.qnext d,
                   visited := BoolArray.InsertAt s.visited d true } := by
        unfold __sssp_neigh_iter
        rw [if_neg h1, if_neg h2]
      rw [h]
      unfold __sssp_neigh_iter
      have hv : BoolArray.InsertAt s.visited d true d = true := by simp [BoolArray.InsertAt]
      rw [if_pos hv]

/-! ## Lemmas on the order of the visits -/

theorem bool_eq_of_iff {a b : Bool} (h : a = true ↔ b = true) : a = b := by
  cases a <;> cases b <;> simp_all

theorem Shared.Equiv.refl (s : Shared) : Shared.Equiv s s :=
  ⟨fun _ => Iff.rfl, fun _ => rfl, rfl⟩

theorem foldl_neigh_equiv (t : Nat) (ds1 ds2 : List Nat) (s1 s2 : Shared)
    (hds : ∀ x, x ∈ ds1 ↔ x ∈ ds2) (he : Shared.Equiv s1 s2) :
    Shared.Equiv (ds1.foldl (fun acc d => __sssp_neigh_iter d t acc) s1)
      (ds2.foldl (fun acc d => __sssp_neigh_iter d t acc) s2) := by
  obtain ⟨hq, hv, hf⟩ := he
  refine ⟨?_, ?_, ?_⟩
  · intro x
    rw [foldl_neigh_qnext, foldl_neigh_qnext, hq x, hds x, hv x]
  · intro v
    apply bool_eq_of_iff
    rw [foldl_neigh_visited, foldl_neigh_visited, hds v, hv v]
  · apply bool_eq_of_iff
    rw [foldl_neigh_found, foldl_neigh_found, hds t, hv t, hf]

theorem expandLevel_eq_foldl (g : Graph) (t : Nat) (q : Set) (s : Shared) :
    expandLevel g q t s =
      (levelVisits g q).foldl (fun acc d => __sssp_neigh_iter d t acc) s := by
  induction q generalizing s with
  | nil => rfl
  | cons u q ih =>
    rw [expandLevel_cons, ih]
    unfold __sssp_iteration
    show _ = List.foldl _ s (g.neighbors u ++ levelVisits g q)
    rw [List.foldl_append]

theorem mem_levelVisits (g : Graph) (q : Set) (x : Nat) :
    x ∈ levelVisits g q ↔ ∃ u, u ∈ q ∧ x ∈ g.neighbors u := by
  induction q with
  | nil => simp [levelVisits]
  | cons v q ih =>
    show x ∈ g.neighbors v ++ levelVisits g q ↔ _
    rw [List.mem_append, ih]
    constructor
    · rintro (h | ⟨u, hu, h⟩)
      · exact ⟨v, List.mem_cons_self _ _, h⟩
      · exact ⟨u, List.mem_cons_of_mem _ hu, h⟩
    · rintro ⟨u, hu, h⟩
      rcases List.mem_cons.mp hu with rfl | hu
      · exact Or.inl h
      · exact Or.inr ⟨u, hu, h⟩

theorem Size_eq_zero_congr (q1 q2 : Set) (h : ∀ x, x ∈ q1 ↔ x ∈ q2) :
    Set.Size q1 = 0 ↔ Set.Size q2 = 0 := by
  unfold Set.Size
  rw [List.length_eq_zero, List.length_eq_zero, List.eq_nil_iff_forall_not_mem,
    List.eq_nil_iff_forall_not_mem]
  constructor
  · intro h1 x hx
    exact h1 x ((h x).mpr hx)
  · intro h2 x hx
    exact h2 x ((h x).mp hx)

theorem levelLoopOrd_empty (order : Nat → List Nat → List Nat) (g : Graph)
    (n dest fuel k : Nat) (q : Set) (s : Shared) (hq : Set.Size q = 0) :
    levelLoopOrd order g n dest fuel k q s = some ⟨numeric_limits_infinity, k, q, s⟩ := by
  cases fuel with
  | zero => unfold levelLoopOrd; rw [if_pos hq]
  | succ fuel => unfold levelLoopOrd; rw [if_pos hq]

theorem levelLoopOrd_zero (order : Nat → List Nat → List Nat) (g : Graph)
    (n dest k : Nat) (q : Set) (s : Shared) (hq : ¬ Set.Size q = 0) :
    levelLoopOrd order g n dest 0 k q s = none := by
  unfold levelLoopOrd; rw [if_neg hq]

theorem levelLoopOrd_found (order : Nat → List Nat → List Nat) (g : Graph)
    (n dest fuel k : Nat) (q : Set) (s : Shared) (hq : ¬ Set.Size q = 0)
    (hf : ((order k (levelVisits g q)).foldl
      (fun acc d => __sssp_neigh_iter d dest acc) s).found = true) :
    levelLoopOrd order g n dest (fuel + 1) k q s =
      some ⟨k + 1, k + 1, q, (order k (levelVisits g q)).foldl
        (fun acc d => __sssp_neigh_iter d dest acc) s⟩ := by
  unfold levelLoopOrd
  rw [if_neg hq]
  dsimp only
  rw [if_pos hf]

theorem levelLoopOrd_next (order : Nat → List Nat → List Nat) (g : Graph)
    (n dest fuel k : Nat) (q : Set) (s : Shared) (hq : ¬ Set.Size q = 0)
    (hf : ¬ ((order k (levelVisits g q)).foldl
      (fun acc d => __sssp_neigh_iter d dest acc) s).found = true) :
    levelLoopOrd order g n dest (fuel + 1) k q s =
      levelLoopOrd order g n dest fuel (k + 1)
        ((order k (levelVisits g q)).foldl
          (fun acc d => __sssp_neigh_iter d dest acc) s).qnext
        { (order k (levelVisits g q)).foldl (fun acc d => __sssp_neigh_iter d dest acc) s with
          qnext := Set.Reset q (n / 2) } := by
  conv_lhs => unfold levelLoopOrd
  rw [if_neg hq]
  dsimp only
  rw [if_neg hf]

theorem levelLoopOrd_ret (order : Nat → List Nat → List Nat)
    (horder : ∀ k l, List.Perm (order k l) l) (g : Graph) (n dest : Nat) :
    ∀ (fuel k : Nat) (q1 q2 : Set) (s1 s2 : Shared),
      (∀ x, x ∈ q1 ↔ x ∈ q2) → Shared.Equiv s1 s2 →
      (levelLoopOrd order g n dest fuel k q1 s1).map (fun o => (o.ret, o.level)) =
        (levelLoop g n dest fuel k q2 s2).map (fun o => (o.ret, o.level)) := by
  intro fuel
  induction fuel with
  | zero =>
    intro k q1 q2 s1 s2 hq he
    by_cases h1 : Set.Size q1 = 0
    · have h2 : Set.Size q2 = 0 := (Size_eq_zero_congr q1 q2 hq).mp h1
      rw [levelLoopOrd_empty order g n dest 0 k q1 s1 h1, levelLoop_empty g n dest 0 k q2 s2 h2]
      rfl
    · have h2 : ¬ Set.Size q2 = 0 := fun h => h1 ((Size_eq_zero_congr q1 q2 hq).mpr h)
      rw [levelLoopOrd_zero order g n dest k q1 s1 h1, levelLoop_zero g n dest k q2 s2 h2]
  | succ fuel ih =>
    intro k q1 q2 s1 s2 hq he
    by_cases h1 : Set.Size q1 = 0
    · have h2 : Set.Size q2 = 0 := (Size_eq_zero_congr q1 q2 hq).mp h1
      rw [levelLoopOrd_empty order g n dest _ k q1 s1 h1, levelLoop_empty g n dest _ k q2 s2 h2]
      rfl
    · have h2 : ¬ Set.Size q2 = 0 := fun h => h1 ((Size_eq_zero_congr q1 q2 hq).mpr h)
      have hds : ∀ x, x ∈ order k (levelVisits g q1) ↔ x ∈ levelVisits g q2 := by
        intro x
        rw [(horder k (levelVisits g q1)).mem_iff, mem_levelVisits, mem_levelVisits]
        constructor
        · rintro ⟨u, hu, h⟩
          exact ⟨u, (hq u).mp hu, h⟩
        · rintro ⟨u, hu, h⟩
          exact ⟨u, (hq u).mpr hu, h⟩
      have hexp := foldl_neigh_equiv dest (order k (levelVisits g q1)) (levelVisits g q2)
        s1 s2 hds he
      rw [← expandLevel_eq_foldl] at hexp
      obtain ⟨hq3, hv3, hf3⟩ := hexp
      by_cases hf : (expandLevel g q2 dest s2).found = true
      · have hf1 : ((order k (levelVisits g q1)).foldl
            (fun acc d => __sssp_neigh_iter d dest acc) s1).found = true := by
          rw [hf3]; exact hf
        rw [levelLoopOrd_found order g n dest fuel k q1 s1 h1 hf1,
          levelLoop_found g n dest fuel k q2 s2 h2 hf]
        rfl
      · have hf1 : ¬ ((order k (levelVisits g q1)).foldl
            (fun acc d => __sssp_neigh_iter d dest acc) s1).found = true := by
          rw [hf3]; exact hf
        rw [levelLoopOrd_next order g n dest fuel k q1 s1 h1 hf1,
          levelLoop_next g n dest fuel k q2 s2 h2 hf]
        exact ih (k + 1) _ _ _ _ hq3 ⟨fun _ => Iff.rfl, hv3, hf3⟩

/-- C17: neighbor visits commute.  Visiting `a` and then `b` leaves the same contents as
visiting `b` and then `a`; the visits of a level leave the same contents in every order in
which they are run; and `sssp_length` returns the same value whatever the order in which the
visits of each level are run.  On the star graph with the visits of every level reversed the
call `(1,2)` still returns `2`. -/
theorem neigh_iter_commute (s : Shared) (target a b : Nat) :
    Shared.Equiv (__sssp_neigh_iter b target (__sssp_neigh_iter a target s))
      (__sssp_neigh_iter a target (__sssp_neigh_iter b target s)) ∧
    (∀ (g : Graph) (q : Set) (ds : List Nat), List.Perm ds (levelVisits g q) →
      Shared.Equiv (ds.foldl (fun acc d => __sssp_neigh_iter d target acc) s)
        (expandLevel g q target s)) ∧
    (∀ (order : Nat → List Nat → List Nat), (∀ k l, List.Perm (order k l) l) →
      ∀ (fuel : Nat) (g : Graph) (n src dest : Nat),
        sssp_length_ord order fuel g n src dest = sssp_length fuel g n src dest) ∧
    sssp_length_ord (fun _ l => l.reverse) 4 starGraph 4 1 2 = some 2 := by
  refine ⟨?_, ?_, ?_, by decide⟩
  · exact foldl_neigh_equiv target [a, b] [b, a] s s
      (fun x => by simp only [List.mem_cons, List.mem_singleton, List.not_mem_nil, or_false]
                   exact Or.comm)
      (Shared.Equiv.refl s)
  · intro g q ds hperm
    rw [expandLevel_eq_foldl]
    exact foldl_neigh_equiv target ds (levelVisits g q) s s (fun x => hperm.mem_iff)
      (Shared.Equiv.refl s)
  · intro order horder fuel g n src dest
    unfold sssp_length_ord sssp_length
    by_cases hne : src = dest
    · rw [if_pos hne]
      subst hne
      unfold sssp_length_outcome __sssp_length
      dsimp only
      rw [if_pos rfl]
      rfl
    · rw [if_neg hne, sssp_length_outcome_ne fuel g n src dest hne]
      have h := levelLoopOrd_ret order horder g n dest fuel 0
        (Set.Insert (Set.Create (n / 2)) src) (Set.Insert (Set.Create (n / 2)) src)
        ⟨Set.Create (n / 2), BoolArray.InsertAt (BoolArray.Create n false) src true,
          BoolArray.Create 1 false 0⟩
        ⟨Set.Create (n / 2), BoolArray.InsertAt (BoolArray.Create n false) src true,
          BoolArray.Create 1 false 0⟩
        (fun _ => Iff.rfl) (Shared.Equiv.refl _)
      have h2 := congrArg (Option.map Prod.fst) h
      simpa [Option.map_map, Function.comp_def] using h2

/-! ## Lemmas on the steps of a query -/

theorem QueryStep.latched {target : Nat} {a b : Set × Shared} (h : QueryStep target a b) :
    Latched a b := by
  cases h with
  | mark q s src =>
    refine ⟨?_, fun hf => hf⟩
    intro v hv
    show BoolArray.InsertAt s.visited src true v = true
    unfold BoolArray.InsertAt
    by_cases hvs : v = src
    · rw [if_pos hvs]
    · rw [if_neg hvs]
      exact hv
  | visit q s d =>
    refine ⟨?_, ?_⟩
    · intro v hv
      exact (neigh_iter_visited d target s v).mpr (Or.inl hv)
    · intro hf
      exact (neigh_iter_found d target s).mpr (Or.inl hf)
  | swap q s hint => exact ⟨fun _ hv => hv, fun hf => hf⟩

theorem steps_latched {target : Nat} {a b : Set × Shared}
    (h : Relation.ReflTransGen (QueryStep target) a b) : Latched a b := by
  induction h with
  | refl => exact ⟨fun _ hv => hv, fun hf => hf⟩
  | tail _ hstep ih =>
    have hl := hstep.latched
    exact ⟨fun v hv => hl.1 v (ih.1 v hv), fun hf => hl.2 (ih.2 hf)⟩

theorem steps_foldl_neigh (target : Nat) (q : Set) (ds : List Nat) (s : Shared) :
    Relation.ReflTransGen (QueryStep target) (q, s)
      (q, ds.foldl (fun acc d => __sssp_neigh_iter d target acc) s) := by
  induction ds generalizing s with
  | nil => exact Relation.ReflTransGen.refl
  | cons d ds ih =>
    rw [List.foldl_cons]
    exact Relation.ReflTransGen.head (QueryStep.visit q s d) (ih _)

theorem steps_expandLevel (g : Graph) (target : Nat) (q : Set) (s : Shared) :
    Relation.ReflTransGen (QueryStep target) (q, s) (q, expandLevel g q target s) := by
  rw [expandLevel_eq_foldl]
  exact steps_foldl_neigh target q _ s

theorem steps_levelLoop (g : Graph) (n dest : Nat) :
    ∀ (fuel k : Nat) (q : Set) (s : Shared) (o : Outcome),
      levelLoop g n dest fuel k q s = some o →
      Relation.ReflTransGen (QueryStep dest) (q, s) (o.q, o.sh) := by
  intro fuel
  induction fuel with
  | zero =>
    intro k q s o hrun
    by_cases hq : Set.Size q = 0
    · rw [levelLoop_empty g n dest 0 k q s hq] at hrun
      cases hrun
      exact Relation.ReflTransGen.refl
    · rw [levelLoop_zero g n dest k q s hq] at hrun
      cases hrun
  | succ fuel ih =>
    intro k q s o hrun
    by_cases hq : Set.Size q = 0
    · rw [levelLoop_empty g n dest _ k q s hq] at hrun
      cases hrun
      exact Relation.ReflTransGen.refl
    · by_cases hf : (expandLevel g q dest s).found = true
      · rw [levelLoop_found g n dest fuel k q s hq hf] at hrun
        cases hrun
        exact steps_expandLevel g dest q s
      · rw [levelLoop_next g n dest fuel k q s hq hf] at hrun
        exact Relation.ReflTransGen.trans (steps_expandLevel g dest q s)
          (Relation.ReflTransGen.head
            (QueryStep.swap q (expandLevel g q dest s) (n / 2)) (ih _ _ _ o hrun))

/-- C19: the visited array and the found flag are write-once latches.  Every step of a query
(the marking of `src`, a neighbor visit, the Reset and swap of the frontiers) keeps every
`true` visited slot and a `true` found flag; the Reset and swap leaves both as they are; the
same holds between any state and any state reached from it by such steps; and a run of
`__sssp_length` is made of such steps, so what is `true` in the containers it was given is
`true` in the containers it leaves behind. -/
theorem visited_found_latched (target : Nat) :
    (∀ a b, QueryStep target a b → Latched a b) ∧
    (∀ (q : Set) (s : Shared) (hint : Nat),
      ({ s with qnext := Set.Reset q hint } : Shared).visited = s.visited ∧
      ({ s with qnext := Set.Reset q hint } : Shared).found = s.found) ∧
    (∀ a b, Relation.ReflTransGen (QueryStep target) a b → Latched a b) ∧
    (∀ (fuel : Nat) (g : Graph) (n : Nat) (to_visit_0 to_visit_1 : Set) (visited : BoolArray)
      (found : Bool) (src : Nat) (o : Outcome),
      __sssp_length fuel g n to_visit_0 to_visit_1 visited found src target = some o →
      Relation.ReflTransGen (QueryStep target) (to_visit_0, ⟨to_visit_1, visited, found⟩)
        (o.q, o.sh) ∧
      (∀ v, visited v = true → o.sh.visited v = true) ∧ (found = true → o.sh.found = true)) := by
  refine ⟨fun _ _ h => h.latched, fun _ _ _ => ⟨rfl, rfl⟩, fun _ _ h => steps_latched h, ?_⟩
  intro fuel g n to_visit_0 to_visit_1 visited found src o hrun
  have hsteps : Relation.ReflTransGen (QueryStep target)
      (to_visit_0, ⟨to_visit_1, visited, found⟩) (o.q, o.sh) := by
    unfold __sssp_length at hrun
    by_cases hsd : src = target
    · rw [if_pos hsd] at hrun
      cases hrun
      exact Relation.ReflTransGen.refl
    · rw [if_neg hsd] at hrun
      exact Relation.ReflTransGen.head
        (QueryStep.mark to_visit_0 ⟨to_visit_1, visited, found⟩ src)
        (steps_levelLoop g n target fuel 0 _ _ o hrun)
  have hl := steps_latched hsteps
  exact ⟨hsteps, hl.1, hl.2⟩

/-! ## Lemmas on the loop heads -/

theorem walk_far_of_dist (g : Graph) (src dest k : Nat)
    (hk : ∀ d, IsDist g src dest d → k < d) : ∀ j, j ≤ k → ¬ Walk g j src dest := by
  have hmin : ∀ j, Walk g j src dest → ∃ d, d ≤ j ∧ IsDist g src dest d := by
    intro j
    induction j using Nat.strong_induction_on with
    | _ j ih =>
      intro hw
      by_cases hc : ∃ i, i < j ∧ Walk g i src dest
      · obtain ⟨i, hi, hwi⟩ := hc
        obtain ⟨d, hd, hdist⟩ := ih i hi hwi
        exact ⟨d, by omega, hdist⟩
      · refine ⟨j, le_refl j, hw, ?_⟩
        intro m hm
        by_contra hlt
        exact hc ⟨m, by omega, hm⟩
  intro j hj hw
  obtain ⟨d, hd, hdist⟩ := hmin j hw
  have := hk d hdist
  omega

theorem queryHead_succ (g : Graph) (n src dest k : Nat) :
    queryHead g n src dest (k + 1) =
      ((expandLevel g (queryHead g n src dest k).1 dest (queryHead g n src dest k).2).qnext,
        { expandLevel g (queryHead g n src dest k).1 dest (queryHead g n src dest k).2 with
          qnext := Set.Reset (queryHead g n src dest k).1 (n / 2) }) := rfl

theorem queryHead_inv (g : Graph) (n src dest : Nat) (hne : src ≠ dest) :
    ∀ k, (∀ j, j ≤ k → ¬ Walk g j src dest) →
      LevelInv g src dest k (queryHead g n src dest k).1 (queryHead g n src dest k).2 := by
  intro k
  induction k with
  | zero =>
    intro _
    exact LevelInv.init g n src dest hne
  | succ k ih =>
    intro hfar
    have hinv := ih (fun j hj => hfar j (by omega))
    have hnf : ¬ (expandLevel g (queryHead g n src dest k).1 dest
        (queryHead g n src dest k).2).found = true := by
      intro hf
      exact hfar (k + 1) (le_refl _) (hinv.found_dist hf).1
    rw [queryHead_succ]
    exact hinv.step hnf (n / 2)

theorem Set.Insert_nodup (s : Set) (x : Nat) (h : s.Nodup) : (Set.Insert s x).Nodup := by
  unfold Set.Insert
  by_cases hx : x ∈ s
  · rw [if_pos hx]
    exact h
  · rw [if_neg hx]
    rw [List.nodup_append]
    refine ⟨h, List.nodup_singleton x, ?_⟩
    intro a ha hax
    rw [List.mem_singleton] at hax
    subst hax
    exact hx ha

theorem neigh_iter_nodup (d t : Nat) (s : Shared) (h : s.qnext.Nodup) :
    (__sssp_neigh_iter d t s).qnext.Nodup := by
  unfold __sssp_neigh_iter
  by_cases h1 : s.visited d = true
  · rw [if_pos h1]
    exact h
  · rw [if_neg h1]
    by_cases h2 : d = t
    · rw [if_pos h2]
      exact h
    · rw [if_neg h2]
      exact Set.Insert_nodup s.qnext d h

theorem foldl_neigh_nodup (t : Nat) (ds : List Nat) (s : Shared) (h : s.qnext.Nodup) :
    (ds.foldl (fun acc d => __sssp_neigh_iter d t acc) s).qnext.Nodup := by
  induction ds generalizing s with
  | nil => exact h
  | cons d ds ih =>
    rw [List.foldl_cons]
    exact ih _ (neigh_iter_nodup d t s h)

theorem queryHead_nodup (g : Graph) (n src dest : Nat) :
    ∀ k, (queryHead g n src dest k).1.Nodup ∧ (queryHead g n src dest k).2.qnext = [] := by
  intro k
  induction k with
  | zero =>
    refine ⟨?_, rfl⟩
    exact Set.Insert_nodup _ src List.nodup_nil
  | succ k ih =>
    rw [queryHead_succ]
    refine ⟨?_, rfl⟩
    show (expandLevel g _ dest _).qnext.Nodup
    rw [expandLevel_eq_foldl]
    apply foldl_neigh_nodup
    rw [ih.2]
    exact List.nodup_nil

theorem levelLoop_to_head (g : Graph) (n src dest : Nat) (k : Nat)
    (hq : ∀ j, j < k → ¬ Set.Size (queryHead g n src dest j).1 = 0)
    (hf : ∀ j, j < k → ¬ (expandLevel g (queryHead g n src dest j).1 dest
      (queryHead g n src dest j).2).found = true) (fuel : Nat) :
    levelLoop g n dest (fuel + k) 0 (initialFrontier n src) (initialShared n src) =
      levelLoop g n dest fuel k (queryHead g n src dest k).1 (queryHead g n src dest k).2 := by
  induction k generalizing fuel with
  | zero => rfl
  | succ k ih =>
    have h1 := ih (fun j hj => hq j (by omega)) (fun j hj => hf j (by omega)) (fuel + 1)
    have hsum : fuel + (k + 1) = fuel + 1 + k := by omega
    rw [hsum, h1, levelLoop_next g n dest fuel k _ _ (hq k (by omega)) (hf k (by omega))]
    rfl

theorem pathGraph_neighbors_succ (w v : Nat) (h : v ∈ pathGraph.neighbors w) : v = w + 1 := by
  match w with
  | 0 => simp [Graph.neighbors, pathGraph, List.lookup] at h; omega
  | 1 => simp [Graph.neighbors, pathGraph, List.lookup] at h; omega
  | 2 => simp [Graph.neighbors, pathGraph, List.lookup] at h; omega
  | 3 => simp [Graph.neighbors, pathGraph, List.lookup] at h; omega
  | k + 4 => simp [Graph.neighbors, pathGraph, List.lookup] at h

theorem pathGraph_walk_from_0 (k v : Nat) (h : Walk pathGraph k 0 v) : v = k := by
  induction k generalizing v with
  | zero => exact Eq.symm h
  | succ k ih =>
    obtain ⟨w, hw, hv⟩ := h
    have hwk : w = k := ih w hw
    subst hwk
    exact pathGraph_neighbors_succ w v hv

theorem pathGraph_dist_0_4 (d : Nat) (h : IsDist pathGraph 0 4 d) : 2 < d := by
  have := pathGraph_walk_from_0 d 4 h.1
  omega

/-! ## Claim on the level invariant -/

/-- C20: for `src ≠ dest` and every `k` smaller than the distance from `src` to `dest` (every
`k` if there is none), at the head of the loop with level counter `k` the current frontier
holds exactly the vertices at distance `k` from `src`, the next frontier is empty, the found
flag is `false` and the visited array is `true` exactly on the vertices within distance `k`.
Moreover `dest` is not marked visited there nor after any visits of the level, the frontier
has no repeated element, a vertex that a visit of the level is about to insert (it is not
visited) is neither in the next frontier nor in any frontier so far, and when the frontiers
of the earlier levels were not empty this state is the one the loop of `sssp_length` is
in. -/
theorem level_invariant (g : Graph) (n src dest k : Nat) (hne : src ≠ dest)
    (hk : ∀ d, IsDist g src dest d → k < d) :
    ((∀ v, v ∈ (queryHead g n src dest k).1 ↔ AtDist g src k v) ∧
      (queryHead g n src dest k).2.qnext = [] ∧
      (queryHead g n src dest k).2.found = false ∧
      (∀ v, (queryHead g n src dest k).2.visited v = true ↔ ∃ j, j ≤ k ∧ Walk g j src v)) ∧
    ((queryHead g n src dest k).1.Nodup ∧
      ∀ (ds : List Nat),
        (ds.foldl (fun acc x => __sssp_neigh_iter x dest acc)
          (queryHead g n src dest k).2).visited dest = false ∧
        ∀ d, (ds.foldl (fun acc x => __sssp_neigh_iter x dest acc)
            (queryHead g n src dest k).2).visited d = false →
          d ∉ (ds.foldl (fun acc x => __sssp_neigh_iter x dest acc)
            (queryHead g n src dest k).2).qnext ∧
          ∀ j, j ≤ k → d ∉ (queryHead g n src dest j).1) ∧
    ((∀ j, j < k → ¬ Set.Size (queryHead g n src dest j).1 = 0) →
      ∀ fuel, sssp_length_outcome (fuel + k) g n src dest =
        levelLoop g n dest fuel k (queryHead g n src dest k).1
          (queryHead g n src dest k).2) := by
  have hfar := walk_far_of_dist g src dest k hk
  have hinv := queryHead_inv g n src dest hne k hfar
  refine ⟨⟨hinv.q_iff, hinv.qnext_nil, hinv.not_found, hinv.visited_iff⟩,
    ⟨(queryHead_nodup g n src dest k).1, ?_⟩, ?_⟩
  · intro ds
    constructor
    · rw [foldl_neigh_visited_false]
      exact ⟨hinv.dest_unvisited, fun hc => hc.2 rfl⟩
    · intro d hd
      rw [foldl_neigh_visited_false] at hd
      constructor
      · rw [foldl_neigh_qnext, hinv.qnext_nil]
        rintro (hc | ⟨h1, _, h3⟩)
        · simp at hc
        · exact hd.2 ⟨h1, h3⟩
      · intro j hj hmem
        have hinvj := queryHead_inv g n src dest hne j (fun i hi => hfar i (by omega))
        have hw : Walk g j src d := ((hinvj.q_iff d).mp hmem).1
        have hvis : (queryHead g n src dest k).2.visited d = true :=
          (hinv.visited_iff d).mpr ⟨j, hj, hw⟩
        rw [hd.1] at hvis
        cases hvis
  · intro hq fuel
    rw [sssp_length_outcome_ne (fuel + k) g n src dest hne]
    refine levelLoop_to_head g n src dest k hq ?_ fuel
    intro j hj
    have hinvj := queryHead_inv g n src dest hne j (fun i hi => hfar i (by omega))
    intro hf
    exact hfar (j + 1) (by omega) (hinvj.found_dist hf).1

/-- Witness of C20 on the directed path `0 → 1 → 2 → 3 → 4` for the query `(0,4)` at level
`2`: the frontier is `[2]` and the loop of `sssp_length` with fuel `5` is in this state when
the level counter is `2`. -/
theorem level_invariant_witness :
    ((0 : Nat) ≠ 4 ∧ ∀ d, IsDist pathGraph 0 4 d → 2 < d) ∧
    ((∀ v, v ∈ (queryHead pathGraph 5 0 4 2).1 ↔ AtDist pathGraph 0 2 v) ∧
      (queryHead pathGraph 5 0 4 2).2.qnext = [] ∧
      (queryHead pathGraph 5 0 4 2).2.found = false ∧
      (∀ v, (queryHead pathGraph 5 0 4 2).2.visited v = true ↔
        ∃ j, j ≤ 2 ∧ Walk pathGraph j 0 v)) ∧
    (queryHead pathGraph 5 0 4 2).1 = [2] ∧
    (queryHead pathGraph 5 0 4 0).1 = [0] ∧
    (queryHead pathGraph 5 0 4 1).1 = [1] ∧
    sssp_length_outcome (3 + 2) pathGraph 5 0 4 =
      levelLoop pathGraph 5 4 3 2 (queryHead pathGraph 5 0 4 2).1
        (queryHead pathGraph 5 0 4 2).2 :=
  ⟨⟨by decide, pathGraph_dist_0_4⟩,
    (level_invariant pathGraph 5 0 4 2 (by decide) pathGraph_dist_0_4).1,
    by decide, by decide, by decide,
    (level_invariant pathGraph 5 0 4 2 (by decide) pathGraph_dist_0_4).2.2
      (fun j hj => by
        match j with
        | 0 => decide
        | 1 => decide
        | k + 2 => omega) 3⟩

end SHAD
